import Mathlib

/-!
# dive-terminal: the paginated dive-log form (`main.go`)

A shallow embedding of the Bubble Tea model of `main.go`:

* `Field` stands for `textinput.Model` (the external text input), reduced to the
  attributes the program reads or writes: placeholder, width, value, focus flag
  and cursor position.
* `model` is the Go struct `model`.  `inputs` is the 13-element backing array;
  every element of `inputsByPage` is a slice header (offset, length) over that
  same backing array, exactly as `inputs[0:3]`, `inputs[3:8]`, `inputs[8:13]`
  alias `inputs` in Go.
* `Update` is `model.Update` and `View` is `model.View`.  A Go run-time panic (index
  out of range) is the result `none`.  The text input's own `Update` and `View` are
  external collaborators and are parameters `ed` and `fieldView` of the embedding.
* Go `int` is taken to be 64 bits wide (`wrapInt64`).
-/

namespace DiveTerminal

/-! ## Errors, keys, messages, commands -/

/-- The two sentinel errors of `strconv`: `ErrSyntax` and `ErrRange`. -/
inductive NumErr where
  | ErrSyntax
  | ErrRange
  deriving DecidableEq, Repr

/-- Go `error` values that reach the model: `errors.New(s)` and `*strconv.NumError`. -/
inductive GoError where
  | errorString (s : String)
  | NumError (Func : String) (Num : String) (Err : NumErr)
  deriving DecidableEq, Repr

/-- The key types of `tea.KeyMsg` that `Update` distinguishes, and the editing keys. -/
inductive KeyType where
  | KeyRight
  | KeyLeft
  | KeyEnter
  | KeyTab
  | KeyShiftTab
  | KeyCtrlC
  | KeyCtrlD
  | KeyEsc
  | KeyRunes (rs : String)
  | KeyBackspace
  | KeyOther (code : Nat)
  deriving DecidableEq, Repr

/-- A `tea.Msg`: a key press, a message implementing `error` (case `errMsg`), or any
other message (cursor blink, window size, ...). -/
inductive Msg where
  | KeyMsg (t : KeyType)
  | errMsg (e : GoError)
  | other (tag : Nat)
  deriving DecidableEq, Repr

/-- A `tea.Cmd` returned by `Update`: `nil`, `tea.Quit`, or a command of the text
input's own (cursor blink, paste). -/
inductive Cmd where
  | nil
  | Quit
  | input
  deriving DecidableEq, Repr

/-- The command `Update` passes on from the text input's own `Update`: a command of the
text input when it hands one back, and `nil` otherwise (a blurred input always hands
back `nil`).  The text input never hands back `tea.Quit`. -/
def inputCmd (hasCmd : Bool) : Cmd :=
  if hasCmd then .input else .nil

/-! ## Fields -/

/-- The part of `textinput.Model` the program touches. -/
structure Field where
  Placeholder : String
  Width : Nat
  value : String
  focus : Bool
  pos : Nat
  deriving DecidableEq, Repr

/-- The result of `textinput.New()` as far as this program can see it. -/
def Field.New : Field :=
  { Placeholder := "", Width := 0, value := "", focus := false, pos := 0 }

/-- The call `(*textinput.Model).Focus()`. -/
def Field.Focus (f : Field) : Field := { f with focus := true }

/-- The call `(*textinput.Model).Blur()`. -/
def Field.Blur (f : Field) : Field := { f with focus := false }

/-- The external text input, `textinput.Model.Update(msg)`: `update` is the input it
returns, `hasCmd` tells whether the `tea.Cmd` it returns is a command rather than `nil`.
An `ed : TextInput` applied to a message and a field stands for `ed.update`. -/
structure TextInput where
  update : Msg → Field → Field
  hasCmd : Msg → Field → Bool

instance : CoeFun TextInput (fun _ => Msg → Field → Field) := ⟨TextInput.update⟩

/-- A slice header over the backing array of `inputs`: start offset and length. -/
structure Slice where
  off : Nat
  len : Nat
  deriving DecidableEq, Repr

/-! ## The model -/

/-- The Go struct `model`. -/
structure model where
  focusIndex : Int
  inputs : List Field
  inputsByPage : List Slice
  currentPage : Int
  err : Option GoError
  deriving DecidableEq, Repr

/-- Helper for `initialModel`: `textinput.New()` with the given placeholder and width. -/
def newInput (placeholder : String) (width : Nat) : Field :=
  { Field.New with Placeholder := placeholder, Width := width }

/-- The function `initialModel`.  The `notes` input is appended to the local variable
`inputs` only, after the struct was built from the 13-element slice, so it is not
part of the returned model. -/
def initialModel : model :=
  { focusIndex := 0
    inputs :=
      [ (newInput "Name your dive" 40).Focus,
        newInput "Where did you dive?" 40,
        newInput "When did you dive?" 40,
        newInput "Enter your dive type e.g. boat" 40,
        newInput "What type of water were you diving in?" 40,
        newInput "Enter your bottom time" 40,
        newInput "Enter your max depth" 40,
        newInput "Enter the surface temp" 40,
        newInput "Enter the bottom temp" 40,
        newInput "Enter your weight" 40,
        newInput "Enter your suit type e.g. wetsuit" 40,
        newInput "Enter your start gas" 40,
        newInput "Enter your end gas" 40 ]
    inputsByPage := [⟨0, 3⟩, ⟨3, 5⟩, ⟨8, 5⟩]
    currentPage := 0
    err := none }

/-! ## Go primitives -/

/-- Go indexing `xs[i]` with an `int` index: `none` is the index-out-of-range panic. -/
def idx? {α : Type} (xs : List α) (i : Int) : Option α :=
  if 0 ≤ i then xs[i.toNat]? else none

/-- Two's-complement wrap-around of a 64-bit Go `int`. -/
def wrapInt64 (x : Int) : Int := (x + 2 ^ 63) % 2 ^ 64 - 2 ^ 63

/-- The digit loop of `strconv.ParseUint(s, 10, 64)`: an invalid byte is `ErrSyntax`,
a value that no longer fits `uint64` is `ErrRange`, whichever comes first. -/
def parseUintLoop : List Char → Nat → Except NumErr Nat
  | [], n => .ok n
  | c :: cs, n =>
    if 48 ≤ c.toNat ∧ c.toNat ≤ 57 then
      if n * 10 + (c.toNat - 48) < 2 ^ 64 then parseUintLoop cs (n * 10 + (c.toNat - 48))
      else .error .ErrRange
    else .error .ErrSyntax

/-- The function `strconv.ParseUint(s, 10, 64)` on the characters of `s`. -/
def ParseUint (cs : List Char) : Except NumErr Nat :=
  match cs with
  | [] => .error .ErrSyntax
  | _ => parseUintLoop cs 0

/-- The function `strconv.Atoi` on a 64-bit platform; the Go documentation gives it
as `ParseInt(s, 10, 0)` converted to `int`: an optional sign, then at least one ASCII
digit, and the value must lie in `[-2^63, 2^63 - 1]`. -/
def Atoi (s : String) : Except GoError Int :=
  let fail (e : NumErr) : Except GoError Int := .error (.NumError "Atoi" s e)
  match s.toList with
  | [] => fail .ErrSyntax
  | c :: cs =>
    let neg := c = '-'
    let body := if c = '+' ∨ c = '-' then cs else c :: cs
    match ParseUint body with
    | .error e => fail e
    | .ok un =>
      if ¬ neg ∧ 2 ^ 63 ≤ un then fail .ErrRange
      else if neg ∧ 2 ^ 63 < un then fail .ErrRange
      else .ok (if neg then -(un : Int) else (un : Int))

/-- The closure `calculateGasRemaining` of `Update`. -/
def calculateGasRemaining (startGasStr endGasStr : String) : Except GoError Int :=
  match Atoi startGasStr with
  | .error err => .error err
  | .ok startGas =>
    match Atoi endGasStr with
    | .error err => .error err
    | .ok endGas => .ok (wrapInt64 (startGas - endGas))

/-! ## Update -/

/-- What `Update` hands back: the new model, the command, and the value printed by
`log.Printf("Gas remaining: %d", gasRemaining)` when that line runs. -/
structure Result where
  m : model
  cmd : Cmd
  logged : Option Int
  deriving DecidableEq, Repr

/-- Control flow of the `switch` in `Update`: an early `return`, or falling through to
the delegation to the text input at the end of the function. -/
inductive Flow where
  | ret (r : Result)
  | next (m : model)
  deriving DecidableEq, Repr

/-- The model carried by either outcome of the switch. -/
def Flow.model : Flow → model
  | .ret r => r.m
  | .next m => m

/-- The error built by `errors.New` in the `KeyRight` branch. -/
def validationError : GoError :=
  .errorString "Please fill out all fields on this page before proceeding."

/-- The elements of a page slice, read from the backing array. -/
def pageFields (inputs : List Field) (page : Slice) : List Field :=
  (inputs.drop page.off).take page.len

/-- The body of the focus loops, for one `i`: element `i` of the page slice is
element `page.off + i` of the backing array. -/
def focusStep (page : Slice) (focusIndex : Int) (inputs : List Field) (i : Nat) :
    List Field :=
  List.modify (fun f => if (i : Int) = focusIndex then f.Focus else f.Blur)
    (page.off + i) inputs

/-- The loop `for i := range m.inputsByPage[m.currentPage]` that focuses the input at
`focusIndex` and blurs the others of that page. -/
def focusLoop (page : Slice) (focusIndex : Int) (inputs : List Field) : List Field :=
  (List.range page.len).foldl (focusStep page focusIndex) inputs

/-- The `switch msg := msg.(type)` statement of `Update`. -/
def switchMsg (m : model) (msg : Msg) : Option Flow :=
  match msg with
  | .KeyMsg .KeyRight =>
    if m.currentPage < (m.inputsByPage.length : Int) - 1 then
      match idx? m.inputsByPage m.currentPage with
      | none => none
      | some page =>
        if (pageFields m.inputs page).any (fun input => input.value == "") then
          some (.ret ⟨{ m with err := some validationError }, .nil, none⟩)
        else
          some (.next { m with currentPage := m.currentPage + 1 })
    else some (.next m)
  | .KeyMsg .KeyLeft =>
    if m.currentPage > 0 then some (.next { m with currentPage := m.currentPage - 1 })
    else some (.next m)
  | .KeyMsg .KeyEnter =>
    if m.focusIndex = (m.inputs.length : Int) - 1 then
      match idx? m.inputs 9, idx? m.inputs 10 with
      | some startGas, some endGas =>
        match calculateGasRemaining startGas.value endGas.value with
        | .error err => some (.ret ⟨{ m with err := some err }, .Quit, none⟩)
        | .ok gasRemaining => some (.ret ⟨m, .Quit, some gasRemaining⟩)
      | _, _ => none
    else
      match idx? m.inputsByPage m.currentPage with
      | none => none
      | some page =>
        let m1 : model :=
          if m.focusIndex < (page.len : Int) - 1 then
            { m with focusIndex := m.focusIndex + 1 }
          else if m.currentPage < (m.inputsByPage.length : Int) - 1 then
            { m with currentPage := m.currentPage + 1, focusIndex := 0 }
          else m
        match idx? m1.inputsByPage m1.currentPage with
        | none => none
        | some page1 =>
          some (.next { m1 with inputs := focusLoop page1 m1.focusIndex m1.inputs })
  | .KeyMsg .KeyTab =>
    match idx? m.inputsByPage m.currentPage with
    | none => none
    | some page =>
      let m1 : model :=
        if m.focusIndex < (page.len : Int) - 1 then
          { m with focusIndex := m.focusIndex + 1 }
        else if m.currentPage < (m.inputsByPage.length : Int) - 1 then
          { m with currentPage := m.currentPage + 1, focusIndex := 0 }
        else m
      match idx? m1.inputsByPage m1.currentPage with
      | none => none
      | some page1 =>
        some (.next { m1 with inputs := focusLoop page1 m1.focusIndex m1.inputs })
  | .KeyMsg .KeyShiftTab =>
    let m1 : Option model :=
      if m.focusIndex > 0 then some { m with focusIndex := m.focusIndex - 1 }
      else if m.currentPage > 0 then
        match idx? m.inputsByPage (m.currentPage - 1) with
        | none => none
        | some prev =>
          some { m with currentPage := m.currentPage - 1, focusIndex := (prev.len : Int) - 1 }
      else some m
    match m1 with
    | none => none
    | some m1 =>
      match idx? m1.inputsByPage m1.currentPage with
      | none => none
      | some page1 =>
        some (.next { m1 with inputs := focusLoop page1 m1.focusIndex m1.inputs })
  | .KeyMsg .KeyCtrlC => some (.ret ⟨m, .Quit, none⟩)
  | .KeyMsg .KeyCtrlD => some (.ret ⟨m, .Quit, none⟩)
  | .KeyMsg .KeyEsc => some (.ret ⟨m, .Quit, none⟩)
  | .KeyMsg _ => some (.next m)
  | .errMsg e => some (.ret ⟨{ m with err := some e }, .nil, none⟩)
  | .other _ => some (.next m)

/-- The last two lines of `Update`:
`m.inputs[m.focusIndex], cmd = m.inputs[m.focusIndex].Update(msg); return m, cmd`.
The index is `focusIndex` into the flat `inputs`, as in the source, and the command is
the one the text input hands back, which may be `nil`. -/
def delegate (ed : TextInput) (m : model) (msg : Msg) : Option Result :=
  match idx? m.inputs m.focusIndex with
  | none => none
  | some input =>
    some ⟨{ m with inputs := m.inputs.set m.focusIndex.toNat (ed msg input) },
      inputCmd (ed.hasCmd msg input), none⟩

/-- The method `model.Update`, with the text input's own `Update` as parameter `ed`;
`none` is a run-time panic. -/
def Update (ed : TextInput) (m : model) (msg : Msg) : Option Result :=
  match switchMsg m msg with
  | none => none
  | some (.ret r) => some r
  | some (.next m1) => delegate ed m1 msg

/-! ## View -/

/-- The function `strconv.Itoa`: the decimal text of a Go `int`. -/
def Itoa (n : Int) : String :=
  if n < 0 then "-" ++ Nat.repr n.natAbs else Nat.repr n.natAbs

/-- The text that the block `if m.err == nil && ... { ... }` of `View` appends to `form`:
the empty string when the block, or the inner `if err == nil`, is skipped.  `none` is
a run-time panic of an index expression.  The conditions are evaluated left to right
with short circuit, as `&&` does. -/
def gasRemainingText (m : model) : Option String :=
  if m.err = none then
    match idx? m.inputs 9 with
    | none => none
    | some input9 =>
      if input9.value ≠ "" then
        match idx? m.inputs 10 with
        | none => none
        | some input10 =>
          if input10.value ≠ "" then
            match Atoi input9.value with
            | .error _ => some ""
            | .ok startGas =>
              let gasRemaining :=
                match Atoi input10.value with
                | .ok endGasInt => wrapInt64 (startGas - endGasInt)
                | .error _ => startGas
              some ("\nGas remaining: " ++ Itoa gasRemaining ++ "\n")
          else some ""
      else some ""
  else some ""

/-- The method `model.View`, with the text input's own `View` as parameter `fieldView`;
`none` is a run-time panic. -/
def View (fieldView : Field → String) (m : model) : Option String :=
  match idx? m.inputsByPage m.currentPage with
  | none => none
  | some page =>
    let form := "Enter your dive details\n\n"
    let form := (pageFields m.inputs page).foldl
      (fun form input => form ++ (fieldView input ++ "\n")) form
    let form := form ++
      ("\nPage " ++ Itoa (m.currentPage + 1) ++ " of " ++
        Itoa (m.inputsByPage.length : Int) ++ "\n")
    match gasRemainingText m with
    | none => none
    | some gas =>
      some (form ++ gas ++ "\n(Press Enter to submit, Tab to switch fields, Esc to quit)")

/-! ## Runs and reachable states -/

/-- Feeds a sequence of messages to `Update`, threading the model as the Bubble Tea
runtime does; `none` if some step panics. -/
def run (ed : TextInput) (m : model) : List Msg → Option model
  | [] => some m
  | msg :: rest =>
    match Update ed m msg with
    | none => none
    | some r => run ed r.m rest

/-- The states the program can be in: the initial model and every model returned by
`Update` from such a state, for any message.  (Messages that arrive after a quit
command was issued are included, which only enlarges the set.) -/
inductive Reachable (ed : TextInput) : model → Prop where
  | init : Reachable ed initialModel
  | step {m : model} {msg : Msg} {r : Result} :
      Reachable ed m → Update ed m msg = some r → Reachable ed r.m

/-! ## A concrete text input, for running the program on examples -/

/-- A small text input in the manner of `textinput.Model.Update`: a blurred input
ignores every message; a focused one inserts typed runes at the cursor, deletes the
character before the cursor on backspace, moves the cursor on the arrow keys, and
ignores everything else. -/
def sampleUpdate (msg : Msg) (f : Field) : Field :=
  if f.focus then
    match msg with
    | .KeyMsg (.KeyRunes rs) =>
      { f with
        value :=
          String.mk (f.value.toList.take f.pos ++ rs.toList ++ f.value.toList.drop f.pos)
        pos := f.pos + rs.length }
    | .KeyMsg .KeyBackspace =>
      { f with
        value := String.mk (f.value.toList.take (f.pos - 1) ++ f.value.toList.drop f.pos)
        pos := f.pos - 1 }
    | .KeyMsg .KeyLeft => { f with pos := f.pos - 1 }
    | .KeyMsg .KeyRight => { f with pos := min (f.pos + 1) f.value.length }
    | _ => f
  else f

/-- The sample text input: `sampleUpdate`, handing back a command (the cursor blink)
exactly when the cursor position changed, and `nil` otherwise. -/
def sampleEditor : TextInput :=
  { update := sampleUpdate
    hasCmd := fun msg f => decide ((sampleUpdate msg f).pos ≠ f.pos) }

/-! ## Well-formed states -/

/-- A state whose layout and indices are such that no slice access of `Update` can
panic: `currentPage` names a page, `focusIndex` is an index of the flat `inputs`, and
every page slice is non-empty and lies inside the backing array.  The bound on
`focusIndex` is the flat length on purpose: it is what the delegation
`m.inputs[m.focusIndex]` needs, and it admits states in which `focusIndex` is not an
index of the current page. -/
def model.Valid (m : model) : Prop :=
  0 ≤ m.currentPage ∧ m.currentPage < (m.inputsByPage.length : Int) ∧
  0 ≤ m.focusIndex ∧ m.focusIndex < (m.inputs.length : Int) ∧
  ∀ s ∈ m.inputsByPage, 0 < s.len ∧ s.off + s.len ≤ m.inputs.length

instance (m : model) : Decidable m.Valid := by
  unfold model.Valid; infer_instance

/-- The layout `initialModel` builds (13 inputs, pages `[0,3)`, `[3,8)`, `[8,13)`) together
with the index ranges the program stays in: `currentPage` from 0 to 2 and `focusIndex`
from 0 to 4, the largest page size minus one. -/
def model.InRange (m : model) : Prop :=
  m.inputs.length = 13 ∧ m.inputsByPage = [⟨0, 3⟩, ⟨3, 5⟩, ⟨8, 5⟩] ∧
  0 ≤ m.currentPage ∧ m.currentPage ≤ 2 ∧ 0 ≤ m.focusIndex ∧ m.focusIndex ≤ 4

instance (m : model) : Decidable m.InRange := by
  unfold model.InRange; infer_instance

/-- What the specification calls the FormState, as an observer sees it: page, focus
index, error, and the value and focus flag of every field. -/
def formState (m : model) : Int × Int × Option GoError × List (String × Bool) :=
  (m.currentPage, m.focusIndex, m.err, m.inputs.map (fun f => (f.value, f.focus)))

/-! ## Integer literals, in the words of the specification -/

deriving instance DecidableEq for Except

/-- The characters of a decimal literal after its optional leading sign. -/
def literalBody (s : String) : List Char :=
  if s.toList.head? = some '+' ∨ s.toList.head? = some '-' then s.toList.tail else s.toList

/-- A valid base-10 integer in the usual sense of the words: an optional sign
followed by one or more ASCII digits (character codes 48 to 57). -/
def isBase10Integer (s : String) : Prop :=
  literalBody s ≠ [] ∧ ∀ c ∈ literalBody s, 48 ≤ c.toNat ∧ c.toNat ≤ 57

instance (s : String) : Decidable (isBase10Integer s) := by
  unfold isBase10Integer; infer_instance

/-- The positional value of a digit string. -/
def digitsValue (cs : List Char) : Nat :=
  cs.foldl (fun n c => n * 10 + (c.toNat - 48)) 0

/-- The integer a decimal literal denotes. -/
def base10Value (s : String) : Int :=
  if s.toList.head? = some '-' then -(digitsValue (literalBody s) : Int)
  else (digitsValue (literalBody s) : Int)

/-- The values a 64-bit Go `int` can hold. -/
def fitsInt64 (x : Int) : Prop := -2 ^ 63 ≤ x ∧ x < 2 ^ 63

instance (x : Int) : Decidable (fitsInt64 x) := by
  unfold fitsInt64; infer_instance

/-- A string that denotes an integer a 64-bit Go `int` can hold. -/
def parsesAsInt64 (s : String) : Prop := isBase10Integer s ∧ fitsInt64 (base10Value s)

instance (s : String) : Decidable (parsesAsInt64 s) := by
  unfold parsesAsInt64; infer_instance

/-! ## Example states -/

/-- Writes `v` into the value of the input at flat index `i`; used to build example
states only. -/
def withValue (m : model) (i : Nat) (v : String) : model :=
  { m with inputs := List.modify (fun f => { f with value := v }) i m.inputs }

/-- Example state: the initial form with "a", "b", "c" written into the three fields of
page 0 and the validation error of an earlier failed next-page still set. -/
def page0FilledAfterError : model :=
  withValue (withValue (withValue { initialModel with err := some validationError }
    0 "a") 1 "b") 2 "c"

/-- A small rendering of one text input, in the manner of `textinput.Model.View`: the
prompt, then the value, or the placeholder while the value is empty. -/
def sampleFieldView (f : Field) : String :=
  "> " ++ (if f.value = "" then f.Placeholder else f.value)

/-- The cancel keys of the `case tea.KeyCtrlC, tea.KeyCtrlD, tea.KeyEsc` branch. -/
def isCancel (msg : Msg) : Prop :=
  msg = .KeyMsg .KeyCtrlC ∨ msg = .KeyMsg .KeyCtrlD ∨ msg = .KeyMsg .KeyEsc

instance (msg : Msg) : Decidable (isCancel msg) := by
  unfold isCancel; infer_instance

/-- Example state: "150" and "50" written into the two inputs that `View` and the
submission branch read (flat indices 9 and 10), no error set. -/
def gasEntered : model :=
  withValue (withValue initialModel 9 "150") 10 "50"

/-- Example state: a model whose `focusIndex` is the flat index of the last input, the
only value for which enter takes the submission branch. -/
def submitState : model :=
  { gasEntered with currentPage := 2, focusIndex := 12 }

/-- Example state: the initial form after a failed next-page. -/
def afterFailedNextPage : model :=
  { initialModel with err := some validationError }

/-- Example state: the first field of page 1. -/
def firstOfPage1 : model :=
  { initialModel with currentPage := 1 }

/-- Example state: the last field of page 0. -/
def lastOfPage0 : model :=
  { initialModel with focusIndex := 2 }

/-! ## Basic lemmas -/

@[simp]
theorem inputCmd_ne_quit (hasCmd : Bool) : inputCmd hasCmd ≠ .Quit := by
  cases hasCmd <;> simp [inputCmd]

theorem idx?_some_of_lt {α : Type} (xs : List α) (i : Int) (h0 : 0 ≤ i)
    (h1 : i < (xs.length : Int)) : ∃ x, idx? xs i = some x ∧ xs[i.toNat]? = some x := by
  have h : i.toNat < xs.length := by omega
  refine ⟨xs[i.toNat], ?_, List.getElem?_eq_getElem h⟩
  unfold idx?
  rw [if_pos h0]
  exact List.getElem?_eq_getElem h

theorem idx?_some_bounds {α : Type} {xs : List α} {i : Int} {x : α}
    (h : idx? xs i = some x) : 0 ≤ i ∧ i < (xs.length : Int) ∧ x ∈ xs := by
  unfold idx? at h
  split at h
  · rename_i h0
    have hlt : i.toNat < xs.length := by
      by_contra hc
      rw [List.getElem?_eq_none (by omega)] at h
      cases h
    refine ⟨h0, by omega, ?_⟩
    exact List.getElem?_mem h
  · cases h

theorem delegate_ok (ed : TextInput) (m : model) (msg : Msg)
    (h0 : 0 ≤ m.focusIndex) (h1 : m.focusIndex < (m.inputs.length : Int)) :
    ∃ input, idx? m.inputs m.focusIndex = some input ∧
      delegate ed m msg =
        some ⟨{ m with inputs := m.inputs.set m.focusIndex.toNat (ed msg input) },
          inputCmd (ed.hasCmd msg input), none⟩ := by
  obtain ⟨x, hx, _⟩ := idx?_some_of_lt m.inputs m.focusIndex h0 h1
  exact ⟨x, hx, by simp [delegate, hx]⟩

theorem map_set_same {α β : Type} (g : α → β) (l : List α) (i : Nat) (x a : α)
    (hx : l[i]? = some x) (h : g a = g x) : (l.set i a).map g = l.map g := by
  apply List.ext_getElem?
  intro n
  by_cases hn : i = n
  · subst hn
    have hlt : i < l.length := by
      by_contra hc
      rw [List.getElem?_eq_none (by omega)] at hx
      cases hx
    have hxe : l[i] = x := by
      have := List.getElem?_eq_getElem hlt
      rw [hx] at this
      exact (Option.some.inj this).symm
    simp [List.getElem?_set, hlt, h, hxe]
  · simp [List.getElem?_set, hn]

theorem sampleEditor_keyLeft (f : Field) :
    (sampleEditor (.KeyMsg .KeyLeft) f).value = f.value ∧
      (sampleEditor (.KeyMsg .KeyLeft) f).focus = f.focus := by
  show (sampleUpdate _ f).value = _ ∧ (sampleUpdate _ f).focus = _
  unfold sampleUpdate
  split <;> simp

theorem keyLeft_first_page (ed : TextInput) (m : model) (hv : m.Valid)
    (hp : m.currentPage = 0)
    (hed : ∀ f, (ed (.KeyMsg .KeyLeft) f).value = f.value ∧
      (ed (.KeyMsg .KeyLeft) f).focus = f.focus) :
    ∃ r, Update ed m (.KeyMsg .KeyLeft) = some r ∧ r.m.Valid ∧ r.m.currentPage = 0 ∧
      formState r.m = formState m := by
  obtain ⟨h0, h1, h2, h3, h4⟩ := hv
  obtain ⟨x, hx, hx'⟩ := idx?_some_of_lt m.inputs m.focusIndex h2 h3
  refine ⟨⟨{ m with inputs := m.inputs.set m.focusIndex.toNat (ed (.KeyMsg .KeyLeft) x) },
    inputCmd (ed.hasCmd (.KeyMsg .KeyLeft) x), none⟩, ?_, ?_, hp, ?_⟩
  · simp [Update, switchMsg, hp, delegate, hx]
  · exact ⟨h0, h1, h2, by simpa using h3, by simpa using h4⟩
  · simp only [formState]
    rw [map_set_same _ _ _ x _ hx' (by simp [hed x])]

theorem keyLeft_first_page_iter (ed : TextInput)
    (hed : ∀ f, (ed (.KeyMsg .KeyLeft) f).value = f.value ∧
      (ed (.KeyMsg .KeyLeft) f).focus = f.focus) (n : Nat) :
    ∀ m : model, m.Valid → m.currentPage = 0 →
      ∃ m', run ed m (List.replicate n (.KeyMsg .KeyLeft)) = some m' ∧
        formState m' = formState m := by
  induction n with
  | zero => intro m _ _; exact ⟨m, rfl, rfl⟩
  | succ k ih =>
    intro m hv hp
    obtain ⟨r, hr, hrv, hrp, hrs⟩ := keyLeft_first_page ed m hv hp hed
    obtain ⟨m', hm', hs'⟩ := ih r.m hrv hrp
    exact ⟨m', by simp [List.replicate_succ, run, hr, hm'], hs'.trans hrs⟩

theorem focusLoop_length (page : Slice) (focusIndex : Int) (inputs : List Field) :
    (focusLoop page focusIndex inputs).length = inputs.length := by
  unfold focusLoop
  generalize List.range page.len = is
  induction is generalizing inputs with
  | nil => rfl
  | cons i is ih => simp [List.foldl, ih, focusStep]

/-- The model right after the index arithmetic of the tab branch, before the focus loop. -/
theorem switchMsg_tab (m : model) (hv : m.Valid) :
    ∃ page m1 page1, idx? m.inputsByPage m.currentPage = some page ∧
      m1 = (if m.focusIndex < (page.len : Int) - 1 then
              { m with focusIndex := m.focusIndex + 1 }
            else if m.currentPage < (m.inputsByPage.length : Int) - 1 then
              { m with currentPage := m.currentPage + 1, focusIndex := 0 }
            else m) ∧
      idx? m.inputsByPage m1.currentPage = some page1 ∧
      0 ≤ m1.focusIndex ∧ m1.focusIndex < (m.inputs.length : Int) ∧ m1.err = m.err ∧
      switchMsg m (.KeyMsg .KeyTab) =
        some (.next { m1 with inputs := focusLoop page1 m1.focusIndex m1.inputs }) := by
  obtain ⟨h0, h1, h2, h3, h4⟩ := hv
  obtain ⟨page, hp, _⟩ := idx?_some_of_lt m.inputsByPage m.currentPage h0 h1
  have hpb := h4 page (idx?_some_bounds hp).2.2
  by_cases c1 : m.focusIndex < (page.len : Int) - 1
  · refine ⟨page, { m with focusIndex := m.focusIndex + 1 }, page, hp, by simp [c1], hp,
      by simp; omega, by simp; omega, rfl, ?_⟩
    simp [switchMsg, hp, c1]
  · by_cases c2 : m.currentPage < (m.inputsByPage.length : Int) - 1
    · obtain ⟨page1, hp1, _⟩ :=
        idx?_some_of_lt m.inputsByPage (m.currentPage + 1) (by omega) (by omega)
      refine ⟨page, { m with currentPage := m.currentPage + 1, focusIndex := 0 }, page1, hp,
        by simp [c1, c2], hp1, by simp, by simp; omega, rfl, ?_⟩
      simp [switchMsg, hp, c1, c2, hp1]
    · refine ⟨page, m, page, hp, by simp [c1, c2], hp, h2, h3, rfl, ?_⟩
      simp [switchMsg, hp, c1, c2]

/-! ## Lemmas on `strconv.Atoi` -/

theorem foldl_digits_ge (cs : List Char) (n : Nat) :
    n ≤ cs.foldl (fun n c => n * 10 + (c.toNat - 48)) n := by
  induction cs generalizing n with
  | nil => exact Nat.le_refl n
  | cons c cs ih =>
    simp only [List.foldl_cons]
    exact Nat.le_trans (by omega) (ih _)

theorem parseUintLoop_ok_iff (cs : List Char) (n v : Nat) (hn : n < 2 ^ 64) :
    parseUintLoop cs n = .ok v ↔
      (∀ c ∈ cs, 48 ≤ c.toNat ∧ c.toNat ≤ 57) ∧
        cs.foldl (fun n c => n * 10 + (c.toNat - 48)) n = v ∧ v < 2 ^ 64 := by
  induction cs generalizing n with
  | nil =>
    simp only [parseUintLoop, List.foldl_nil, List.not_mem_nil, false_implies, implies_true,
      true_and, Except.ok.injEq]
    constructor
    · intro h; subst h; exact ⟨rfl, hn⟩
    · intro h; exact h.1
  | cons c cs ih =>
    simp only [parseUintLoop, List.foldl_cons, List.mem_cons, forall_eq_or_imp]
    by_cases hd : 48 ≤ c.toNat ∧ c.toNat ≤ 57
    · rw [if_pos hd]
      by_cases hr : n * 10 + (c.toNat - 48) < 2 ^ 64
      · rw [if_pos hr, ih _ hr]
        constructor
        · rintro ⟨h1, h2, h3⟩; exact ⟨⟨hd, h1⟩, h2, h3⟩
        · rintro ⟨⟨_, h1⟩, h2, h3⟩; exact ⟨h1, h2, h3⟩
      · rw [if_neg hr]
        constructor
        · intro h; cases h
        · rintro ⟨_, h2, h3⟩
          have := foldl_digits_ge cs (n * 10 + (c.toNat - 48))
          omega
    · rw [if_neg hd]
      constructor
      · intro h; cases h
      · rintro ⟨⟨h, _⟩, _⟩; exact absurd h hd

theorem ParseUint_ok_iff (cs : List Char) (v : Nat) :
    ParseUint cs = .ok v ↔
      cs ≠ [] ∧ (∀ c ∈ cs, 48 ≤ c.toNat ∧ c.toNat ≤ 57) ∧ digitsValue cs = v ∧ v < 2 ^ 64 := by
  cases cs with
  | nil => simp [ParseUint]
  | cons c cs =>
    simp only [ParseUint, ne_eq, reduceCtorEq, not_false_eq_true, true_and]
    exact parseUintLoop_ok_iff (c :: cs) 0 v (by norm_num)

theorem Atoi_ok_iff (s : String) (v : Int) :
    Atoi s = .ok v ↔ isBase10Integer s ∧ fitsInt64 (base10Value s) ∧ v = base10Value s := by
  unfold Atoi isBase10Integer base10Value literalBody fitsInt64
  cases hs : s.toList with
  | nil => simp
  | cons c cs =>
    simp only [List.head?_cons, Option.some.injEq, List.tail_cons]
    by_cases hm : c = '-'
    · subst hm
      simp only [or_true, if_true, true_and, not_true_eq_false, false_and, if_false]
      cases hp : ParseUint cs with
      | error e =>
        simp only [reduceCtorEq, false_iff]
        rintro ⟨⟨h1, h2⟩, ⟨h3, h4⟩, _⟩
        have := (ParseUint_ok_iff cs (digitsValue cs)).mpr ⟨h1, h2, rfl, by omega⟩
        rw [hp] at this; cases this
      | ok un =>
        obtain ⟨h1, h2, h3, h4⟩ := (ParseUint_ok_iff cs un).mp hp
        subst h3
        by_cases hr : 2 ^ 63 < digitsValue cs
        · simp only [hr, if_true, reduceCtorEq, false_iff]
          rintro ⟨_, ⟨h5, _⟩, _⟩
          omega
        · simp only [hr, if_false, Except.ok.injEq]
          constructor
          · intro h; subst h; exact ⟨⟨h1, h2⟩, ⟨by omega, by omega⟩, rfl⟩
          · rintro ⟨_, _, h⟩; exact h.symm
    · by_cases hpl : c = '+'
      · subst hpl
        simp only [hm, true_or, if_true, if_false, not_false_eq_true, true_and, false_and]
        cases hp : ParseUint cs with
        | error e =>
          simp only [reduceCtorEq, false_iff]
          rintro ⟨⟨h1, h2⟩, ⟨h3, h4⟩, _⟩
          have := (ParseUint_ok_iff cs (digitsValue cs)).mpr ⟨h1, h2, rfl, by omega⟩
          rw [hp] at this; cases this
        | ok un =>
          obtain ⟨h1, h2, h3, h4⟩ := (ParseUint_ok_iff cs un).mp hp
          subst h3
          by_cases hr : 2 ^ 63 ≤ digitsValue cs
          · simp only [hr, if_true, reduceCtorEq, false_iff]
            rintro ⟨_, ⟨_, h5⟩, _⟩
            omega
          · simp only [hr, if_false, Except.ok.injEq]
            constructor
            · intro h; subst h; exact ⟨⟨h1, h2⟩, ⟨by omega, by omega⟩, rfl⟩
            · rintro ⟨_, _, h⟩; exact h.symm
      · simp only [hm, hpl, or_self, if_false, not_false_eq_true, true_and, false_and]
        cases hp : ParseUint (c :: cs) with
        | error e =>
          simp only [reduceCtorEq, false_iff]
          rintro ⟨⟨h1, h2⟩, ⟨h3, h4⟩, _⟩
          have := (ParseUint_ok_iff (c :: cs) (digitsValue (c :: cs))).mpr
            ⟨h1, h2, rfl, by omega⟩
          rw [hp] at this; cases this
        | ok un =>
          obtain ⟨h1, h2, h3, h4⟩ := (ParseUint_ok_iff (c :: cs) un).mp hp
          subst h3
          by_cases hr : 2 ^ 63 ≤ digitsValue (c :: cs)
          · simp only [hr, if_true, reduceCtorEq, false_iff]
            rintro ⟨_, ⟨_, h5⟩, _⟩
            omega
          · simp only [hr, if_false, Except.ok.injEq]
            constructor
            · intro h; subst h; exact ⟨⟨h1, h2⟩, ⟨by omega, by omega⟩, rfl⟩
            · rintro ⟨_, _, h⟩; exact h.symm

theorem Atoi_ok_or_error (s : String) :
    (∃ v, Atoi s = .ok v) ∨ ∃ k, Atoi s = .error (.NumError "Atoi" s k) := by
  unfold Atoi
  cases s.toList with
  | nil => exact Or.inr ⟨_, rfl⟩
  | cons c cs =>
    simp only
    split
    · exact Or.inr ⟨_, rfl⟩
    · split_ifs <;> first | exact Or.inr ⟨_, rfl⟩ | exact Or.inl ⟨_, rfl⟩

theorem wrapInt64_of_fits (x : Int) (h : fitsInt64 x) : wrapInt64 x = x := by
  unfold fitsInt64 at h
  unfold wrapInt64
  omega

/-! ## Reachable states are well-formed -/

theorem run_reachable (ed : TextInput) (msgs : List Msg) :
    ∀ m m', Reachable ed m → run ed m msgs = some m' → Reachable ed m' := by
  induction msgs with
  | nil =>
    intro m m' hr h
    simp only [run, Option.some.injEq] at h
    exact h ▸ hr
  | cons msg rest ih =>
    intro m m' hr h
    simp only [run] at h
    cases hu : Update ed m msg with
    | none => rw [hu] at h; cases h
    | some r =>
      rw [hu] at h
      exact ih r.m m' (Reachable.step hr hu) h

theorem valid_of_eq (m m1 : model) (hv : m.Valid) (hp : m1.inputsByPage = m.inputsByPage)
    (hl : m1.inputs.length = m.inputs.length)
    (hc : 0 ≤ m1.currentPage ∧ m1.currentPage < (m.inputsByPage.length : Int))
    (hf : 0 ≤ m1.focusIndex ∧ m1.focusIndex < (m.inputs.length : Int)) : m1.Valid := by
  obtain ⟨_, _, _, _, h4⟩ := hv
  refine ⟨hc.1, by rw [hp]; exact hc.2, hf.1, by rw [hl]; exact hf.2, ?_⟩
  rw [hp, hl]; exact h4

theorem delegate_valid (ed : TextInput) (m : model) (msg : Msg) (r : Result)
    (hv : m.Valid) (h : delegate ed m msg = some r) : r.m.Valid := by
  obtain ⟨x, _, hd⟩ := delegate_ok ed m msg hv.2.2.1 hv.2.2.2.1
  rw [hd] at h
  cases h
  exact valid_of_eq m _ hv rfl (by simp) ⟨hv.1, hv.2.1⟩ ⟨hv.2.2.1, hv.2.2.2.1⟩

theorem switchMsg_shiftTab (m : model) (hv : m.Valid) :
    ∃ (m1 : model) (page1 : Slice), m1.inputs = m.inputs ∧
      m1.inputsByPage = m.inputsByPage ∧ m1.err = m.err ∧
      idx? m.inputsByPage m1.currentPage = some page1 ∧
      0 ≤ m1.focusIndex ∧ m1.focusIndex < (m.inputs.length : Int) ∧
      switchMsg m (.KeyMsg .KeyShiftTab) =
        some (.next { m1 with inputs := focusLoop page1 m1.focusIndex m1.inputs }) := by
  obtain ⟨h0, h1, h2, h3, h4⟩ := hv
  obtain ⟨page, hp, _⟩ := idx?_some_of_lt m.inputsByPage m.currentPage h0 h1
  by_cases c1 : m.focusIndex > 0
  · exact ⟨{ m with focusIndex := m.focusIndex - 1 }, page, rfl, rfl, rfl, hp,
      by simp; omega, by simp; omega, by simp [switchMsg, c1, hp]⟩
  · by_cases c2 : m.currentPage > 0
    · obtain ⟨prev, hprev, _⟩ :=
        idx?_some_of_lt m.inputsByPage (m.currentPage - 1) (by omega) (by omega)
      have hpb := h4 prev (idx?_some_bounds hprev).2.2
      exact ⟨{ m with currentPage := m.currentPage - 1, focusIndex := (prev.len : Int) - 1 },
        prev, rfl, rfl, rfl, hprev, by simp; omega, by simp; omega,
        by simp [switchMsg, c1, c2, hprev]⟩
    · exact ⟨m, page, rfl, rfl, rfl, hp, h2, h3, by simp [switchMsg, c1, c2, hp]⟩

theorem switchMsg_tab_valid (m : model) (hv : m.Valid) :
    (∀ r, switchMsg m (.KeyMsg .KeyTab) = some (.ret r) → r.m.Valid) ∧
    (∀ m1, switchMsg m (.KeyMsg .KeyTab) = some (.next m1) → m1.Valid) := by
  obtain ⟨page', m1, page1, hp', hm1, hp1, hf0, hf1, herr, hsw⟩ := switchMsg_tab m hv
  rw [hsw]
  constructor
  · intro r h; simp at h
  · intro m2 h
    simp only [Option.some.injEq, Flow.next.injEq] at h
    subst h
    have hb := idx?_some_bounds hp1
    have hpg : m1.inputsByPage = m.inputsByPage := by rw [hm1]; split_ifs <;> rfl
    have hin : m1.inputs = m.inputs := by rw [hm1]; split_ifs <;> rfl
    exact valid_of_eq m _ hv hpg (by simp [focusLoop_length, hin]) ⟨hb.1, hb.2.1⟩ ⟨hf0, hf1⟩

theorem switchMsg_valid (m : model) (msg : Msg) (hv : m.Valid) :
    (∀ r, switchMsg m msg = some (.ret r) → r.m.Valid) ∧
    (∀ m1, switchMsg m msg = some (.next m1) → m1.Valid) := by
  have hv' := hv
  obtain ⟨h0, h1, h2, h3, h4⟩ := hv'
  obtain ⟨page, hp, _⟩ := idx?_some_of_lt m.inputsByPage m.currentPage h0 h1
  have hpb := h4 page (idx?_some_bounds hp).2.2
  cases msg with
  | errMsg e =>
    constructor
    · intro r h; simp only [switchMsg, Option.some.injEq, Flow.ret.injEq] at h
      subst h; exact valid_of_eq m _ hv rfl rfl ⟨h0, h1⟩ ⟨h2, h3⟩
    · intro m1 h; simp [switchMsg] at h
  | other t =>
    constructor
    · intro r h; simp [switchMsg] at h
    · intro m1 h; simp only [switchMsg, Option.some.injEq, Flow.next.injEq] at h
      subst h; exact hv
  | KeyMsg t =>
    cases t with
    | KeyRight =>
      simp only [switchMsg, hp]
      constructor
      · intro r h
        split_ifs at h <;> simp only [Option.some.injEq, Flow.ret.injEq, reduceCtorEq] at h
        subst h; exact valid_of_eq m _ hv rfl rfl ⟨h0, h1⟩ ⟨h2, h3⟩
      · intro m1 h
        split_ifs at h <;> simp only [Option.some.injEq, Flow.next.injEq, reduceCtorEq] at h
        · subst h; exact valid_of_eq m _ hv rfl rfl ⟨by simp; omega, by simp; omega⟩ ⟨h2, h3⟩
        · subst h; exact hv
    | KeyLeft =>
      simp only [switchMsg]
      constructor
      · intro r h; split_ifs at h <;> simp at h
      · intro m1 h
        split_ifs at h <;> simp only [Option.some.injEq, Flow.next.injEq] at h
        · subst h; exact valid_of_eq m _ hv rfl rfl ⟨by simp; omega, by simp; omega⟩ ⟨h2, h3⟩
        · subst h; exact hv
    | KeyTab => exact switchMsg_tab_valid m hv
    | KeyEnter =>
      by_cases hl : m.focusIndex = (m.inputs.length : Int) - 1
      · simp only [switchMsg]
        rw [if_pos hl]
        constructor
        · intro r h
          split at h
          · split at h <;> simp only [Option.some.injEq, Flow.ret.injEq] at h
            · subst h; exact valid_of_eq m _ hv rfl rfl ⟨h0, h1⟩ ⟨h2, h3⟩
            · subst h; exact hv
          · cases h
        · intro m1 h
          split at h
          · split at h <;> simp at h
          · cases h
      · have hsw : switchMsg m (.KeyMsg .KeyEnter) = switchMsg m (.KeyMsg .KeyTab) := by
          simp [switchMsg, hl]
        rw [hsw]; exact switchMsg_tab_valid m hv
    | KeyShiftTab =>
      obtain ⟨m1, page1, hin, hpg, _, hp1, hf0, hf1, hsw⟩ := switchMsg_shiftTab m hv
      rw [hsw]
      constructor
      · intro r h; simp at h
      · intro m2 h
        simp only [Option.some.injEq, Flow.next.injEq] at h
        subst h
        have hb := idx?_some_bounds hp1
        exact valid_of_eq m _ hv hpg (by simp [focusLoop_length, hin]) ⟨hb.1, hb.2.1⟩ ⟨hf0, hf1⟩
    | KeyCtrlC =>
      constructor
      · intro r h; simp only [switchMsg, Option.some.injEq, Flow.ret.injEq] at h
        subst h; exact hv
      · intro m1 h; simp [switchMsg] at h
    | KeyCtrlD =>
      constructor
      · intro r h; simp only [switchMsg, Option.some.injEq, Flow.ret.injEq] at h
        subst h; exact hv
      · intro m1 h; simp [switchMsg] at h
    | KeyEsc =>
      constructor
      · intro r h; simp only [switchMsg, Option.some.injEq, Flow.ret.injEq] at h
        subst h; exact hv
      · intro m1 h; simp [switchMsg] at h
    | KeyRunes rs =>
      constructor
      · intro r h; simp [switchMsg] at h
      · intro m1 h; simp only [switchMsg, Option.some.injEq, Flow.next.injEq] at h
        subst h; exact hv
    | KeyBackspace =>
      constructor
      · intro r h; simp [switchMsg] at h
      · intro m1 h; simp only [switchMsg, Option.some.injEq, Flow.next.injEq] at h
        subst h; exact hv
    | KeyOther c =>
      constructor
      · intro r h; simp [switchMsg] at h
      · intro m1 h; simp only [switchMsg, Option.some.injEq, Flow.next.injEq] at h
        subst h; exact hv

theorem Update_valid (ed : TextInput) (m : model) (msg : Msg) (r : Result)
    (hv : m.Valid) (h : Update ed m msg = some r) : r.m.Valid := by
  obtain ⟨hret, hnext⟩ := switchMsg_valid m msg hv
  unfold Update at h
  split at h
  · cases h
  · rename_i r' hs
    simp only [Option.some.injEq] at h
    subst h
    exact hret _ hs
  · rename_i m1 hs
    exact delegate_valid ed m1 msg r (hnext _ hs) h

theorem Reachable.valid {ed : TextInput} {m : model} (h : Reachable ed m) :
    m.Valid := by
  induction h with
  | init => decide
  | step _ hu ih => exact Update_valid ed _ _ _ ih hu

/-! ## What the focus loop and `Update` leave alone -/

theorem focusLoop_getElem? (page : Slice) (focusIndex : Int) (inputs : List Field) (j : Nat) :
    (focusLoop page focusIndex inputs)[j]? =
      if page.off ≤ j ∧ j < page.off + page.len then
        (inputs[j]?).map
          (fun f => if ((j - page.off : Nat) : Int) = focusIndex then f.Focus else f.Blur)
      else inputs[j]? := by
  unfold focusLoop
  generalize page.len = n
  induction n with
  | zero =>
    have : ¬ (page.off ≤ j ∧ j < page.off) := by omega
    simp [this]
  | succ k ih =>
    rw [List.range_succ, List.foldl_append]
    simp only [List.foldl_cons, List.foldl_nil, focusStep, List.getElem?_modify, ih]
    by_cases h1 : page.off + k = j
    · have h2 : ¬ (page.off ≤ j ∧ j < page.off + k) := by omega
      have h3 : page.off ≤ j ∧ j < page.off + (k + 1) := by omega
      have h4 : j - page.off = k := by omega
      simp [h1, h2, h3, h4]
    · by_cases h2 : page.off ≤ j ∧ j < page.off + k
      · have h3 : page.off ≤ j ∧ j < page.off + (k + 1) := by omega
        simp [h1, h2, h3]
      · have h3 : ¬ (page.off ≤ j ∧ j < page.off + (k + 1)) := by omega
        simp [h1, h2, h3]

theorem focusLoop_map {β : Type} (g : Field → β) (hF : ∀ f, g f.Focus = g f)
    (hB : ∀ f, g f.Blur = g f)
    (page : Slice) (focusIndex : Int) (inputs : List Field) :
    (focusLoop page focusIndex inputs).map g = inputs.map g := by
  apply List.ext_getElem?
  intro j
  simp only [List.getElem?_map, focusLoop_getElem?]
  split
  · cases inputs[j]? with
    | none => rfl
    | some f =>
      simp only [Option.map_some']
      split <;> simp [hF, hB]
  · rfl

theorem focusLoop_map_value (page : Slice) (focusIndex : Int) (inputs : List Field) :
    (focusLoop page focusIndex inputs).map (fun f => f.value) =
      inputs.map (fun f => f.value) :=
  focusLoop_map (fun f => f.value) (fun _ => rfl) (fun _ => rfl) page focusIndex inputs

theorem switchMsg_frame (m : model) (msg : Msg) (fl : Flow) (h : switchMsg m msg = some fl) :
    fl.model.inputsByPage = m.inputsByPage ∧
    fl.model.inputs.length = m.inputs.length ∧
    fl.model.inputs.map (fun f => f.value) = m.inputs.map (fun f => f.value) ∧
    (m.err ≠ none → fl.model.err ≠ none) := by
  cases msg with
  | errMsg e =>
    simp only [switchMsg, Option.some.injEq] at h
    subst h; simp [Flow.model]
  | other t =>
    simp only [switchMsg, Option.some.injEq] at h
    subst h; simp [Flow.model]
  | KeyMsg t =>
    cases t with
    | KeyRight =>
      simp only [switchMsg] at h
      split at h
      · split at h
        · cases h
        · split at h <;> (simp only [Option.some.injEq] at h; subst h; simp [Flow.model])
      · simp only [Option.some.injEq] at h; subst h; simp [Flow.model]
    | KeyLeft =>
      simp only [switchMsg] at h
      split at h <;> (simp only [Option.some.injEq] at h; subst h; simp [Flow.model])
    | KeyEnter =>
      simp only [switchMsg] at h
      split at h
      · split at h
        · split at h <;> (simp only [Option.some.injEq] at h; subst h; simp [Flow.model])
        · cases h
      · split at h
        · cases h
        · split at h
          · cases h
          · simp only [Option.some.injEq] at h; subst h
            simp only [Flow.model, focusLoop_length, focusLoop_map_value]
            split_ifs <;> simp
    | KeyTab =>
      simp only [switchMsg] at h
      split at h
      · cases h
      · split at h
        · cases h
        · simp only [Option.some.injEq] at h; subst h
          simp only [Flow.model, focusLoop_length, focusLoop_map_value]
          split_ifs <;> simp
    | KeyShiftTab =>
      simp only [switchMsg] at h
      split at h
      · cases h
      · rename_i m1 hm1
        split at h
        · cases h
        · simp only [Option.some.injEq] at h; subst h
          simp only [Flow.model, focusLoop_length, focusLoop_map_value]
          split_ifs at hm1
          · simp only [Option.some.injEq] at hm1; subst hm1; simp
          · split at hm1
            · cases hm1
            · simp only [Option.some.injEq] at hm1; subst hm1; simp
          · simp only [Option.some.injEq] at hm1; subst hm1; simp
    | KeyCtrlC => simp only [switchMsg, Option.some.injEq] at h; subst h; simp [Flow.model]
    | KeyCtrlD => simp only [switchMsg, Option.some.injEq] at h; subst h; simp [Flow.model]
    | KeyEsc => simp only [switchMsg, Option.some.injEq] at h; subst h; simp [Flow.model]
    | KeyRunes rs => simp only [switchMsg, Option.some.injEq] at h; subst h; simp [Flow.model]
    | KeyBackspace => simp only [switchMsg, Option.some.injEq] at h; subst h; simp [Flow.model]
    | KeyOther c => simp only [switchMsg, Option.some.injEq] at h; subst h; simp [Flow.model]

theorem delegate_some (ed : TextInput) (m : model) (msg : Msg) (r : Result)
    (h : delegate ed m msg = some r) :
    ∃ input, m.inputs[m.focusIndex.toNat]? = some input ∧ 0 ≤ m.focusIndex ∧
      r = ⟨{ m with inputs := m.inputs.set m.focusIndex.toNat (ed msg input) },
        inputCmd (ed.hasCmd msg input), none⟩ := by
  unfold delegate at h
  split at h
  · cases h
  · rename_i input hi
    simp only [Option.some.injEq] at h
    have hb := idx?_some_bounds hi
    obtain ⟨x, hx, hx'⟩ := idx?_some_of_lt m.inputs m.focusIndex hb.1 hb.2.1
    rw [hi] at hx
    cases hx
    exact ⟨input, hx', hb.1, h.symm⟩

theorem Update_cases (ed : TextInput) (m : model) (msg : Msg) (r : Result)
    (h : Update ed m msg = some r) :
    switchMsg m msg = some (.ret r) ∨
      ∃ m1, switchMsg m msg = some (.next m1) ∧ delegate ed m1 msg = some r := by
  unfold Update at h
  split at h
  · cases h
  · rename_i r' hs
    simp only [Option.some.injEq] at h
    subst h
    exact Or.inl hs
  · rename_i m1 hs
    exact Or.inr ⟨m1, hs, h⟩

theorem Update_frame (ed : TextInput) (m : model) (msg : Msg) (r : Result)
    (h : Update ed m msg = some r) :
    r.m.inputsByPage = m.inputsByPage ∧ r.m.inputs.length = m.inputs.length ∧
    (m.err ≠ none → r.m.err ≠ none) ∧
    ((∀ f, (ed msg f).value = f.value) →
      r.m.inputs.map (fun f => f.value) = m.inputs.map (fun f => f.value)) := by
  rcases Update_cases ed m msg r h with hs | ⟨m1, hs, hd⟩
  · obtain ⟨h1, h2, h3, h4⟩ := switchMsg_frame m msg _ hs
    exact ⟨h1, h2, h4, fun _ => h3⟩
  · obtain ⟨h1, h2, h3, h4⟩ := switchMsg_frame m msg _ hs
    obtain ⟨input, hi, _, hr⟩ := delegate_some ed m1 msg r hd
    subst hr
    simp only [Flow.model] at h1 h2 h3 h4
    refine ⟨h1, by simpa using h2, h4, ?_⟩
    intro hed
    simp only
    rw [map_set_same (fun f => f.value) _ _ input _ hi (hed input)]
    exact h3

/-! ## The index ranges of reachable states; `Update` and `View` do not panic -/

theorem switchMsg_focus_le (m : model) (msg : Msg) (fl : Flow) (B : Int) (hB0 : 0 ≤ B)
    (hB : ∀ s ∈ m.inputsByPage, (s.len : Int) ≤ B + 1) (hf : m.focusIndex ≤ B)
    (h : switchMsg m msg = some fl) : fl.model.focusIndex ≤ B := by
  cases msg with
  | errMsg e =>
    simp only [switchMsg, Option.some.injEq] at h
    subst h; exact hf
  | other t =>
    simp only [switchMsg, Option.some.injEq] at h
    subst h; exact hf
  | KeyMsg t =>
    cases t with
    | KeyRight =>
      simp only [switchMsg] at h
      split at h
      · split at h
        · cases h
        · split at h <;> (simp only [Option.some.injEq] at h; subst h; exact hf)
      · simp only [Option.some.injEq] at h; subst h; exact hf
    | KeyLeft =>
      simp only [switchMsg] at h
      split at h <;> (simp only [Option.some.injEq] at h; subst h; exact hf)
    | KeyEnter =>
      simp only [switchMsg] at h
      split at h
      · split at h
        · split at h <;> (simp only [Option.some.injEq] at h; subst h; exact hf)
        · cases h
      · split at h
        · cases h
        · rename_i page hp
          have hl := hB page (idx?_some_bounds hp).2.2
          split at h
          · cases h
          · simp only [Option.some.injEq] at h; subst h
            simp only [Flow.model]
            split_ifs <;> (try simp only) <;> omega
    | KeyTab =>
      simp only [switchMsg] at h
      split at h
      · cases h
      · rename_i page hp
        have hl := hB page (idx?_some_bounds hp).2.2
        split at h
        · cases h
        · simp only [Option.some.injEq] at h; subst h
          simp only [Flow.model]
          split_ifs <;> (try simp only) <;> omega
    | KeyShiftTab =>
      simp only [switchMsg] at h
      split at h
      · cases h
      · rename_i m1 hm1
        split at h
        · cases h
        · simp only [Option.some.injEq] at h; subst h
          simp only [Flow.model]
          split_ifs at hm1
          · simp only [Option.some.injEq] at hm1; subst hm1; simp only; omega
          · split at hm1
            · cases hm1
            · rename_i prev hprev
              have hl := hB prev (idx?_some_bounds hprev).2.2
              simp only [Option.some.injEq] at hm1; subst hm1; simp only; omega
          · simp only [Option.some.injEq] at hm1; subst hm1; exact hf
    | KeyCtrlC => simp only [switchMsg, Option.some.injEq] at h; subst h; exact hf
    | KeyCtrlD => simp only [switchMsg, Option.some.injEq] at h; subst h; exact hf
    | KeyEsc => simp only [switchMsg, Option.some.injEq] at h; subst h; exact hf
    | KeyRunes rs => simp only [switchMsg, Option.some.injEq] at h; subst h; exact hf
    | KeyBackspace => simp only [switchMsg, Option.some.injEq] at h; subst h; exact hf
    | KeyOther c => simp only [switchMsg, Option.some.injEq] at h; subst h; exact hf

theorem Update_focus_le (ed : TextInput) (m : model) (msg : Msg) (r : Result)
    (B : Int) (hB0 : 0 ≤ B) (hB : ∀ s ∈ m.inputsByPage, (s.len : Int) ≤ B + 1)
    (hf : m.focusIndex ≤ B) (h : Update ed m msg = some r) : r.m.focusIndex ≤ B := by
  rcases Update_cases ed m msg r h with hs | ⟨m1, hs, hd⟩
  · exact switchMsg_focus_le m msg _ B hB0 hB hf hs
  · have h1 := switchMsg_focus_le m msg _ B hB0 hB hf hs
    obtain ⟨input, _, _, hr⟩ := delegate_some ed m1 msg r hd
    subst hr
    exact h1

theorem model.InRange.toValid {m : model} (h : m.InRange) : m.Valid := by
  obtain ⟨hl, hp, h0, h1, h2, h3⟩ := h
  refine ⟨h0, by rw [hp]; simp; omega, h2, by rw [hl]; simp; omega, ?_⟩
  rw [hp, hl]
  intro s hs
  simp only [List.mem_cons, List.mem_singleton, List.not_mem_nil, or_false] at hs
  rcases hs with rfl | rfl | rfl <;> simp

theorem Update_inRange (ed : TextInput) (m : model) (msg : Msg) (r : Result)
    (hi : m.InRange) (h : Update ed m msg = some r) : r.m.InRange := by
  have hv := Update_valid ed m msg r hi.toValid h
  obtain ⟨hfp, hfl, _, _⟩ := Update_frame ed m msg r h
  obtain ⟨hl, hp, h0, h1, h2, h3⟩ := hi
  have hle : r.m.focusIndex ≤ 4 := by
    apply Update_focus_le ed m msg r 4 (by omega) _ h3 h
    rw [hp]
    intro s hs
    simp only [List.mem_cons, List.mem_singleton, List.not_mem_nil, or_false] at hs
    rcases hs with rfl | rfl | rfl <;> simp
  obtain ⟨v0, v1, v2, _, _⟩ := hv
  rw [hfp, hp] at v1
  simp only [List.length_cons, List.length_nil] at v1
  exact ⟨by rw [hfl, hl], by rw [hfp, hp], v0, by omega, v2, hle⟩

theorem Reachable.inRange {ed : TextInput} {m : model} (h : Reachable ed m) :
    m.InRange := by
  induction h with
  | init => decide
  | step _ hu ih => exact Update_inRange ed _ _ _ ih hu

theorem switchMsg_total (m : model) (msg : Msg) (hv : m.Valid)
    (hs : msg = .KeyMsg .KeyEnter →
      m.focusIndex ≠ (m.inputs.length : Int) - 1 ∨ 10 < m.inputs.length) :
    ∃ fl, switchMsg m msg = some fl := by
  have hv' := hv
  obtain ⟨h0, h1, h2, h3, h4⟩ := hv'
  obtain ⟨page, hp, _⟩ := idx?_some_of_lt m.inputsByPage m.currentPage h0 h1
  have htab : ∃ fl, switchMsg m (.KeyMsg .KeyTab) = some fl := by
    obtain ⟨_, _, _, _, _, _, _, _, _, hsw⟩ := switchMsg_tab m hv
    exact ⟨_, hsw⟩
  cases msg with
  | errMsg e => exact ⟨_, rfl⟩
  | other t => exact ⟨_, rfl⟩
  | KeyMsg t =>
    cases t with
    | KeyRight =>
      simp only [switchMsg, hp]
      split_ifs <;> exact ⟨_, rfl⟩
    | KeyLeft =>
      simp only [switchMsg]
      split_ifs <;> exact ⟨_, rfl⟩
    | KeyEnter =>
      by_cases hl : m.focusIndex = (m.inputs.length : Int) - 1
      · have h10 : 10 < m.inputs.length := by
          rcases hs rfl with hs | hs
          · exact absurd hl hs
          · exact hs
        obtain ⟨a, ha, _⟩ := idx?_some_of_lt m.inputs 9 (by omega) (by omega)
        obtain ⟨b, hb, _⟩ := idx?_some_of_lt m.inputs 10 (by omega) (by omega)
        simp only [switchMsg]
        rw [if_pos hl, ha, hb]
        simp only
        split <;> exact ⟨_, rfl⟩
      · have hsw : switchMsg m (.KeyMsg .KeyEnter) = switchMsg m (.KeyMsg .KeyTab) := by
          simp [switchMsg, hl]
        rw [hsw]; exact htab
    | KeyTab => exact htab
    | KeyShiftTab =>
      obtain ⟨_, _, _, _, _, _, _, _, hsw⟩ := switchMsg_shiftTab m hv
      exact ⟨_, hsw⟩
    | KeyCtrlC => exact ⟨_, rfl⟩
    | KeyCtrlD => exact ⟨_, rfl⟩
    | KeyEsc => exact ⟨_, rfl⟩
    | KeyRunes rs => exact ⟨_, rfl⟩
    | KeyBackspace => exact ⟨_, rfl⟩
    | KeyOther c => exact ⟨_, rfl⟩

theorem Update_total (ed : TextInput) (m : model) (msg : Msg) (hv : m.Valid)
    (hs : msg = .KeyMsg .KeyEnter →
      m.focusIndex ≠ (m.inputs.length : Int) - 1 ∨ 10 < m.inputs.length) :
    ∃ r, Update ed m msg = some r := by
  obtain ⟨fl, hfl⟩ := switchMsg_total m msg hv hs
  cases fl with
  | ret r => exact ⟨r, by simp [Update, hfl]⟩
  | next m1 =>
    have hv1 := (switchMsg_valid m msg hv).2 m1 hfl
    obtain ⟨x, _, hd⟩ := delegate_ok ed m1 msg hv1.2.2.1 hv1.2.2.2.1
    exact ⟨_, by simp only [Update, hfl]; exact hd⟩

theorem gasRemainingText_total (m : model) (h : 10 < m.inputs.length) :
    ∃ s, gasRemainingText m = some s := by
  obtain ⟨a, ha, _⟩ := idx?_some_of_lt m.inputs 9 (by omega) (by omega)
  obtain ⟨b, hb, _⟩ := idx?_some_of_lt m.inputs 10 (by omega) (by omega)
  unfold gasRemainingText
  rw [ha, hb]
  simp only
  split_ifs
  · split <;> exact ⟨_, rfl⟩
  all_goals exact ⟨_, rfl⟩

theorem View_total (fieldView : Field → String) (m : model) (hv : m.Valid)
    (h : 10 < m.inputs.length) : ∃ s, View fieldView m = some s := by
  obtain ⟨page, hp, _⟩ := idx?_some_of_lt m.inputsByPage m.currentPage hv.1 hv.2.1
  obtain ⟨g, hg⟩ := gasRemainingText_total m h
  simp only [View, hp, hg]
  exact ⟨_, rfl⟩

/-! ## Lemmas for rendering, quitting and focus -/

theorem Atoi_of_parses (s : String) (h : parsesAsInt64 s) : Atoi s = .ok (base10Value s) :=
  (Atoi_ok_iff s _).mpr ⟨h.1, h.2, rfl⟩

theorem Atoi_error_of_not_parses (s : String) (h : ¬ parsesAsInt64 s) :
    ∃ k, Atoi s = .error (.NumError "Atoi" s k) := by
  rcases Atoi_ok_or_error s with ⟨v, hv⟩ | he
  · have := (Atoi_ok_iff s v).mp hv
    exact absurd ⟨this.1, this.2.1⟩ h
  · exact he

theorem calculateGasRemaining_of_parses (first second : String) (h1 : parsesAsInt64 first)
    (h2 : parsesAsInt64 second) :
    calculateGasRemaining first second =
      .ok (wrapInt64 (base10Value first - base10Value second)) := by
  simp [calculateGasRemaining, Atoi_of_parses first h1, Atoi_of_parses second h2]

theorem pages_concat (inputs : List Field) (h : inputs.length = 13) :
    pageFields inputs ⟨0, 3⟩ ++ pageFields inputs ⟨3, 5⟩ ++ pageFields inputs ⟨8, 5⟩ =
      inputs := by
  have h2 : (inputs.drop 8).take 5 = inputs.drop 8 :=
    List.take_of_length_le (by simp [h])
  have h3 : inputs.drop 8 = (inputs.drop 3).drop 5 := by simp [List.drop_drop]
  simp only [pageFields, List.drop_zero]
  rw [h2, h3, List.append_assoc, List.take_append_drop, List.take_append_drop]

theorem switchMsg_ret_quit (m : model) (msg : Msg) (r : Result)
    (hne : m.focusIndex ≠ (m.inputs.length : Int) - 1)
    (h : switchMsg m msg = some (.ret r)) : (r.cmd = .Quit ↔ isCancel msg) ∧ r.logged = none := by
  cases msg with
  | errMsg e =>
    simp only [switchMsg, Option.some.injEq, Flow.ret.injEq] at h
    subst h; simp [isCancel]
  | other t => simp [switchMsg] at h
  | KeyMsg t =>
    cases t with
    | KeyRight =>
      simp only [switchMsg] at h
      split at h
      · split at h
        · cases h
        · split at h
          · simp only [Option.some.injEq, Flow.ret.injEq] at h
            subst h; simp [isCancel]
          · simp at h
      · simp at h
    | KeyLeft =>
      simp only [switchMsg] at h
      split at h <;> simp at h
    | KeyEnter =>
      have hsw : switchMsg m (.KeyMsg .KeyEnter) = switchMsg m (.KeyMsg .KeyTab) := by
        simp [switchMsg, hne]
      rw [hsw] at h
      simp only [switchMsg] at h
      split at h
      · cases h
      · split at h <;> simp at h
    | KeyTab =>
      simp only [switchMsg] at h
      split at h
      · cases h
      · split at h <;> simp at h
    | KeyShiftTab =>
      simp only [switchMsg] at h
      split at h
      · cases h
      · split at h <;> simp at h
    | KeyCtrlC =>
      simp only [switchMsg, Option.some.injEq, Flow.ret.injEq] at h
      subst h; simp [isCancel]
    | KeyCtrlD =>
      simp only [switchMsg, Option.some.injEq, Flow.ret.injEq] at h
      subst h; simp [isCancel]
    | KeyEsc =>
      simp only [switchMsg, Option.some.injEq, Flow.ret.injEq] at h
      subst h; simp [isCancel]
    | KeyRunes rs => simp [switchMsg] at h
    | KeyBackspace => simp [switchMsg] at h
    | KeyOther c => simp [switchMsg] at h

theorem switchMsg_next_not_cancel (m : model) (msg : Msg) (m1 : model)
    (h : switchMsg m msg = some (.next m1)) : ¬ isCancel msg := by
  rintro (rfl | rfl | rfl) <;> simp [switchMsg] at h

theorem Update_quit_iff (ed : TextInput) (m : model) (msg : Msg) (r : Result)
    (hne : m.focusIndex ≠ (m.inputs.length : Int) - 1) (h : Update ed m msg = some r) :
    (r.cmd = .Quit ↔ isCancel msg) ∧ r.logged = none := by
  rcases Update_cases ed m msg r h with hs | ⟨m1, hs, hd⟩
  · exact switchMsg_ret_quit m msg r hne hs
  · obtain ⟨input, _, _, hr⟩ := delegate_some ed m1 msg r hd
    subst hr
    have := switchMsg_next_not_cancel m msg m1 hs
    simp [this]

theorem run_err (ed : TextInput) (msgs : List Msg) :
    ∀ m m', m.err ≠ none → run ed m msgs = some m' → m'.err ≠ none := by
  induction msgs with
  | nil =>
    intro m m' he h
    simp only [run, Option.some.injEq] at h
    exact h ▸ he
  | cons msg rest ih =>
    intro m m' he h
    simp only [run] at h
    cases hu : Update ed m msg with
    | none => rw [hu] at h; cases h
    | some r =>
      rw [hu] at h
      exact ih r.m m' ((Update_frame ed m msg r hu).2.2.1 he) h

theorem gasRemainingText_of_err (m : model) (h : m.err ≠ none) : gasRemainingText m = some "" := by
  simp [gasRemainingText, h]

theorem switchMsg_tab_nav (m : model) (fl : Flow)
    (h : switchMsg m (.KeyMsg .KeyTab) = some fl) :
    ∃ page, idx? m.inputsByPage m.currentPage = some page ∧
      (m.focusIndex < (page.len : Int) - 1 →
        fl.model.currentPage = m.currentPage ∧ fl.model.focusIndex = m.focusIndex + 1) ∧
      (¬ m.focusIndex < (page.len : Int) - 1 →
        m.currentPage < (m.inputsByPage.length : Int) - 1 →
        fl.model.currentPage = m.currentPage + 1 ∧ fl.model.focusIndex = 0) := by
  simp only [switchMsg] at h
  split at h
  · cases h
  · rename_i page hp
    refine ⟨page, hp, ?_, ?_⟩
    · intro c1
      simp only [c1, if_true] at h
      split at h
      · cases h
      · simp only [Option.some.injEq] at h; subst h; exact ⟨rfl, rfl⟩
    · intro c1 c2
      simp only [c1, c2, if_true, if_false] at h
      split at h
      · cases h
      · simp only [Option.some.injEq] at h; subst h; exact ⟨rfl, rfl⟩

theorem switchMsg_shiftTab_nav (m : model) (fl : Flow)
    (h : switchMsg m (.KeyMsg .KeyShiftTab) = some fl) :
    (m.focusIndex > 0 →
      fl.model.currentPage = m.currentPage ∧ fl.model.focusIndex = m.focusIndex - 1) ∧
    (¬ m.focusIndex > 0 → m.currentPage > 0 →
      fl.model.currentPage = m.currentPage - 1 ∧
      ∃ prev, idx? m.inputsByPage (m.currentPage - 1) = some prev ∧
        fl.model.focusIndex = (prev.len : Int) - 1) := by
  simp only [switchMsg] at h
  constructor
  · intro c1
    simp only [c1, if_true] at h
    split at h
    · cases h
    · simp only [Option.some.injEq] at h; subst h; exact ⟨rfl, rfl⟩
  · intro c1 c2
    simp only [c1, c2, if_true, if_false] at h
    split at h
    · cases h
    · rename_i m1 hm1
      split at hm1
      · cases hm1
      · rename_i prev hprev
        simp only [Option.some.injEq] at hm1; subst hm1
        split at h
        · cases h
        · simp only [Option.some.injEq] at h; subst h
          exact ⟨rfl, prev, hprev, rfl⟩

theorem Update_nav (ed : TextInput) (m : model) (msg : Msg) (r : Result)
    (h : Update ed m msg = some r) :
    ∃ fl, switchMsg m msg = some fl ∧ r.m.currentPage = fl.model.currentPage ∧
      r.m.focusIndex = fl.model.focusIndex := by
  rcases Update_cases ed m msg r h with hs | ⟨m1, hs, hd⟩
  · exact ⟨_, hs, rfl, rfl⟩
  · obtain ⟨input, _, _, hr⟩ := delegate_some ed m1 msg r hd
    subst hr
    exact ⟨_, hs, rfl, rfl⟩

theorem switchMsg_focus_applied (m : model) (key : KeyType) (fl : Flow)
    (hkey : key = .KeyTab ∨ key = .KeyShiftTab ∨ key = .KeyEnter)
    (hnt : key = .KeyEnter → m.focusIndex ≠ (m.inputs.length : Int) - 1)
    (h : switchMsg m (.KeyMsg key) = some fl) :
    ∃ m1 page1, fl = .next m1 ∧ idx? m.inputsByPage m1.currentPage = some page1 ∧
      m1.inputsByPage = m.inputsByPage ∧
      m1.inputs = focusLoop page1 m1.focusIndex m.inputs := by
  have htab : ∀ fl, switchMsg m (.KeyMsg .KeyTab) = some fl →
      ∃ m1 page1, fl = .next m1 ∧ idx? m.inputsByPage m1.currentPage = some page1 ∧
        m1.inputsByPage = m.inputsByPage ∧
        m1.inputs = focusLoop page1 m1.focusIndex m.inputs := by
    intro fl h
    simp only [switchMsg] at h
    split at h
    · cases h
    · split at h
      · cases h
      · rename_i page1 hp1
        simp only [Option.some.injEq] at h; subst h
        refine ⟨_, page1, rfl, ?_, ?_, ?_⟩
        · simp only; split_ifs at hp1 ⊢ <;> exact hp1
        · simp only; split_ifs <;> rfl
        · simp only; split_ifs <;> rfl
  rcases hkey with rfl | rfl | rfl
  · exact htab fl h
  · simp only [switchMsg] at h
    split at h
    · cases h
    · rename_i m1 hm1
      split at h
      · cases h
      · rename_i page1 hp1
        simp only [Option.some.injEq] at h; subst h
        split_ifs at hm1
        · simp only [Option.some.injEq] at hm1; subst hm1
          exact ⟨_, page1, rfl, hp1, rfl, rfl⟩
        · split at hm1
          · cases hm1
          · simp only [Option.some.injEq] at hm1; subst hm1
            exact ⟨_, page1, rfl, hp1, rfl, rfl⟩
        · simp only [Option.some.injEq] at hm1; subst hm1
          exact ⟨_, page1, rfl, hp1, rfl, rfl⟩
  · have hsw : switchMsg m (.KeyMsg .KeyEnter) = switchMsg m (.KeyMsg .KeyTab) := by
      simp [switchMsg, hnt rfl]
    rw [hsw] at h
    exact htab fl h

theorem sampleEditor_focus (msg : Msg) (f : Field) :
    (sampleEditor msg f).focus = f.focus := by
  show (sampleUpdate msg f).focus = f.focus
  unfold sampleUpdate
  split
  · split <;> rfl
  · rfl

theorem sampleEditor_keyTab_value (f : Field) :
    (sampleEditor (.KeyMsg .KeyTab) f).value = f.value := by
  show (sampleUpdate _ f).value = f.value
  unfold sampleUpdate
  split <;> rfl

/-! ## The fields of a page, by flat index -/

theorem pageFields_getElem? (inputs : List Field) (page : Slice) (i : Nat) :
    (pageFields inputs page)[i]? = if i < page.len then inputs[page.off + i]? else none := by
  unfold pageFields
  rw [List.getElem?_take, List.getElem?_drop]

theorem mem_pageFields_iff (inputs : List Field) (page : Slice) (f : Field) :
    f ∈ pageFields inputs page ↔ ∃ i, i < page.len ∧ inputs[page.off + i]? = some f := by
  rw [List.mem_iff_getElem?]
  constructor
  · rintro ⟨i, hi⟩
    rw [pageFields_getElem?] at hi
    split at hi
    · exact ⟨i, by assumption, hi⟩
    · cases hi
  · rintro ⟨i, hlt, hi⟩
    exact ⟨i, by rw [pageFields_getElem?, if_pos hlt]; exact hi⟩

theorem keyRight_empty_field (ed : TextInput) (m : model) (page : Slice)
    (hlt : m.currentPage < (m.inputsByPage.length : Int) - 1)
    (hp : idx? m.inputsByPage m.currentPage = some page)
    (hex : ∃ i f, i < page.len ∧ m.inputs[page.off + i]? = some f ∧ f.value = "") :
    Update ed m (.KeyMsg .KeyRight) =
      some ⟨{ m with err := some validationError }, .nil, none⟩ := by
  obtain ⟨i, f, hi, hf, hfe⟩ := hex
  have hany : (pageFields m.inputs page).any (fun input => input.value == "") = true :=
    List.any_eq_true.mpr ⟨f, (mem_pageFields_iff _ _ _).mpr ⟨i, hi, hf⟩, by simp [hfe]⟩
  simp [Update, switchMsg, hlt, hp, hany]

/-! ## The claims -/

/-- C1 (code defect).  The bound `focusIndex < number of fields on page currentPage` is
not an invariant of the program: whatever the text input does, seven tabs take the
initial form to the last field of page 1 (`focusIndex = 4`), and a left-arrow then
moves to page 0, which has three fields, without touching `focusIndex`. -/
theorem keyLeft_leaves_focusIndex_past_page_end (ed : TextInput) :
    ∃ m, run ed initialModel
        (List.replicate 7 (.KeyMsg .KeyTab) ++ [.KeyMsg .KeyLeft]) = some m ∧
      Reachable ed m ∧ m.currentPage = 0 ∧ m.focusIndex = 4 ∧
      idx? m.inputsByPage m.currentPage = some ⟨0, 3⟩ := by
  have h : ∃ m, run ed initialModel
        (List.replicate 7 (.KeyMsg .KeyTab) ++ [.KeyMsg .KeyLeft]) = some m ∧
      m.currentPage = 0 ∧ m.focusIndex = 4 ∧
      idx? m.inputsByPage m.currentPage = some ⟨0, 3⟩ := by
    simp [run, Update, switchMsg, delegate, idx?, initialModel, focusLoop, focusStep,
      List.range, List.range.loop]
  obtain ⟨m, h1, h2⟩ := h
  exact ⟨m, h1, run_reachable _ _ _ _ Reachable.init h1, h2⟩

/-- C2 (code defect).  After three tabs from the initial form the program is on page 1
with `focusIndex = 0`, and two fields carry the focus flag: flat index 3 (the field at
`(currentPage, focusIndex)`) and flat index 2, the last field of page 0, which the focus
loop over the new page never blurs. -/
theorem tab_across_page_leaves_two_fields_focused :
    ∃ m, run sampleEditor initialModel
        [.KeyMsg .KeyTab, .KeyMsg .KeyTab, .KeyMsg .KeyTab] = some m ∧
      Reachable sampleEditor m ∧ m.currentPage = 1 ∧ m.focusIndex = 0 ∧
      m.inputs.map (fun f => f.focus) =
        [false, false, true, true, false, false, false, false, false, false, false, false,
          false] ∧
      (m.inputs.filter (fun f => f.focus)).length = 2 := by
  have h : ∃ m, run sampleEditor initialModel
        [.KeyMsg .KeyTab, .KeyMsg .KeyTab, .KeyMsg .KeyTab] = some m ∧
      m.currentPage = 1 ∧ m.focusIndex = 0 ∧
      m.inputs.map (fun f => f.focus) =
        [false, false, true, true, false, false, false, false, false, false, false, false,
          false] ∧
      (m.inputs.filter (fun f => f.focus)).length = 2 := ⟨_, rfl, by decide⟩
  obtain ⟨m, h1, h2⟩ := h
  exact ⟨m, h1, run_reachable _ _ _ _ Reachable.init h1, h2⟩

/-- C3.  Right-arrow on a well-formed state that is not on the last page, where the
fields of the current page are the inputs at flat indices `page.off + i`, `i < page.len`:
if one of them has an empty value, the result is the same model with only `err` set to
the validation error (so page, focus index and every field are unchanged) and the
command is nil; if all of them are non-empty, `currentPage` grows by exactly one and
`focusIndex` is unchanged. -/
theorem moveToNextPage_validates_then_advances (ed : TextInput) (m : model)
    (hv : m.Valid) (hlt : m.currentPage < (m.inputsByPage.length : Int) - 1) :
    ∃ page, idx? m.inputsByPage m.currentPage = some page ∧
      validationError =
        .errorString "Please fill out all fields on this page before proceeding." ∧
      ((∃ i f, i < page.len ∧ m.inputs[page.off + i]? = some f ∧ f.value = "") →
        Update ed m (.KeyMsg .KeyRight) =
          some ⟨{ m with err := some validationError }, .nil, none⟩) ∧
      ((∀ i f, i < page.len → m.inputs[page.off + i]? = some f → f.value ≠ "") →
        ∃ r, Update ed m (.KeyMsg .KeyRight) = some r ∧
          r.m.currentPage = m.currentPage + 1 ∧ r.m.focusIndex = m.focusIndex) := by
  obtain ⟨page, hp, _⟩ := idx?_some_of_lt m.inputsByPage m.currentPage hv.1 hv.2.1
  have hget : ∀ i, (pageFields m.inputs page)[i]? =
      if i < page.len then m.inputs[page.off + i]? else none := by
    intro i
    unfold pageFields
    rw [List.getElem?_take, List.getElem?_drop]
  refine ⟨page, hp, rfl, ?_, ?_⟩
  · rintro ⟨i, f, hi, hf, hfe⟩
    have hmem : f ∈ pageFields m.inputs page :=
      List.mem_iff_getElem?.mpr ⟨i, by rw [hget, if_pos hi]; exact hf⟩
    have hany : (pageFields m.inputs page).any (fun input => input.value == "") = true :=
      List.any_eq_true.mpr ⟨f, hmem, by simp [hfe]⟩
    simp [Update, switchMsg, hlt, hp, hany]
  · intro hall
    have hany : (pageFields m.inputs page).any (fun input => input.value == "") = false := by
      rw [Bool.eq_false_iff]
      intro h
      obtain ⟨f, hf, hfe⟩ := List.any_eq_true.mp h
      obtain ⟨i, hi⟩ := List.mem_iff_getElem?.mp hf
      rw [hget] at hi
      split at hi
      · rename_i hlen
        exact hall i f hlen hi (by simpa using hfe)
      · cases hi
    obtain ⟨x, _, hd⟩ := delegate_ok ed { m with currentPage := m.currentPage + 1 }
      (.KeyMsg .KeyRight) hv.2.2.1 hv.2.2.2.1
    exact ⟨_, by simp only [Update, switchMsg, hlt, if_true, hp, hany]; exact hd,
      by rfl, by rfl⟩

/-- Witness for C3, with both branches discharged: on the initial form the first field
of page 0 is empty and right-arrow only sets the validation error; on the example state
with "a", "b", "c" in the three fields of page 0 right-arrow moves to page 1 and keeps
`focusIndex = 0`. -/
theorem moveToNextPage_validates_then_advances_witness :
    (initialModel.Valid ∧
      initialModel.currentPage < (initialModel.inputsByPage.length : Int) - 1 ∧
      idx? initialModel.inputsByPage initialModel.currentPage = some ⟨0, 3⟩ ∧
      (pageFields initialModel.inputs ⟨0, 3⟩).map (fun f => f.Placeholder) =
        ["Name your dive", "Where did you dive?", "When did you dive?"] ∧
      (∃ f, initialModel.inputs[0 + 0]? = some f ∧ f.value = "") ∧
      Update sampleEditor initialModel (.KeyMsg .KeyRight) =
        some ⟨{ initialModel with err := some validationError }, .nil, none⟩) ∧
    (page0FilledAfterError.Valid ∧
      page0FilledAfterError.currentPage <
        (page0FilledAfterError.inputsByPage.length : Int) - 1 ∧
      idx? page0FilledAfterError.inputsByPage page0FilledAfterError.currentPage =
        some ⟨0, 3⟩ ∧
      (pageFields page0FilledAfterError.inputs ⟨0, 3⟩).map (fun f => f.value) =
        ["a", "b", "c"] ∧
      ∃ r, Update sampleEditor page0FilledAfterError (.KeyMsg .KeyRight) = some r ∧
        r.m.currentPage = 1 ∧ r.m.focusIndex = 0) := by
  have hp0 : idx? initialModel.inputsByPage initialModel.currentPage = some ⟨0, 3⟩ := by
    decide
  have hp1 : idx? page0FilledAfterError.inputsByPage page0FilledAfterError.currentPage =
      some ⟨0, 3⟩ := by decide
  obtain ⟨page, hp, _, hfail, _⟩ :=
    moveToNextPage_validates_then_advances sampleEditor initialModel (by decide) (by decide)
  obtain ⟨page', hp', _, _, hadv⟩ :=
    moveToNextPage_validates_then_advances sampleEditor page0FilledAfterError (by decide)
      (by decide)
  rw [hp0] at hp
  rw [hp1] at hp'
  cases hp
  cases hp'
  refine ⟨⟨by decide, by decide, hp0, by decide, ⟨_, rfl, by decide⟩,
    hfail ⟨0, _, by decide, rfl, by decide⟩⟩, by decide, by decide, hp1, by decide, ?_⟩
  have hall : ∀ i f, i < (⟨0, 3⟩ : Slice).len →
      page0FilledAfterError.inputs[(⟨0, 3⟩ : Slice).off + i]? = some f → f.value ≠ "" := by
    intro i f hi hf
    have h3 : i < 3 := hi
    interval_cases i <;>
      (simp [page0FilledAfterError, withValue, initialModel] at hf; subst hf; decide)
  obtain ⟨r, hr, h1, h2⟩ := hadv hall
  exact ⟨r, hr, h1, h2⟩

/-- C4 as stated fails: after a failed right-arrow the three fields of page 0 are filled
in, the second right-arrow succeeds (page 1), and the validation error is still set. -/
theorem moveToNextPage_error_not_cleared :
    ∃ m r, run sampleEditor initialModel
        [.KeyMsg .KeyRight, .KeyMsg (.KeyRunes "a"), .KeyMsg .KeyTab,
          .KeyMsg (.KeyRunes "b"), .KeyMsg .KeyTab, .KeyMsg (.KeyRunes "c")] = some m ∧
      m.currentPage = 0 ∧
      (pageFields m.inputs ⟨0, 3⟩).map (fun f => f.value) = ["a", "b", "c"] ∧
      m.err = some validationError ∧
      Update sampleEditor m (.KeyMsg .KeyRight) = some r ∧
      r.m.currentPage = 1 ∧ r.m.err = some validationError :=
  ⟨_, _, rfl, by decide, by decide, by decide, rfl, by decide, by decide⟩

/-- C4, amended.  A successful right-arrow (well-formed state, not on the last page,
every field of the current page non-empty) advances the page by one and leaves the
error exactly as it was: an error set earlier stays set. -/
theorem moveToNextPage_keeps_error (ed : TextInput) (m : model) (page : Slice)
    (hv : m.Valid) (hlt : m.currentPage < (m.inputsByPage.length : Int) - 1)
    (hp : idx? m.inputsByPage m.currentPage = some page)
    (hfill : ∀ f ∈ pageFields m.inputs page, f.value ≠ "") :
    ∃ r, Update ed m (.KeyMsg .KeyRight) = some r ∧ r.m.currentPage = m.currentPage + 1 ∧
      r.m.err = m.err := by
  obtain ⟨h0, h1, h2, h3, _⟩ := hv
  have hany : (pageFields m.inputs page).any (fun input => input.value == "") = false := by
    rw [Bool.eq_false_iff]
    intro h
    obtain ⟨f, hf, hfe⟩ := List.any_eq_true.mp h
    exact hfill f hf (by simpa using hfe)
  obtain ⟨x, _, hd⟩ := delegate_ok ed { m with currentPage := m.currentPage + 1 }
    (.KeyMsg .KeyRight) h2 h3
  exact ⟨⟨_, _, none⟩, by simp only [Update, switchMsg, hlt, if_true, hp, hany]; exact hd,
    by rfl, by rfl⟩

/-- Witness for the amended C4: page 0 filled in, with the validation error of an
earlier failed attempt still set. -/
theorem moveToNextPage_keeps_error_witness :
    page0FilledAfterError.Valid ∧
    page0FilledAfterError.currentPage <
      (page0FilledAfterError.inputsByPage.length : Int) - 1 ∧
    idx? page0FilledAfterError.inputsByPage page0FilledAfterError.currentPage =
      some ⟨0, 3⟩ ∧
    (∀ f ∈ pageFields page0FilledAfterError.inputs ⟨0, 3⟩, f.value ≠ "") ∧
    page0FilledAfterError.err = some validationError ∧
    ∃ r, Update sampleEditor page0FilledAfterError (.KeyMsg .KeyRight) = some r ∧
      r.m.currentPage = page0FilledAfterError.currentPage + 1 ∧
      r.m.err = page0FilledAfterError.err :=
  ⟨by decide, by decide, by decide, by decide, by decide,
    moveToNextPage_keeps_error sampleEditor page0FilledAfterError ⟨0, 3⟩
      (by decide) (by decide) (by decide) (by decide)⟩

/-- C5.  Left-arrow on a well-formed state never fails and never quits, leaves `err` and
`focusIndex` unchanged, and moves `currentPage` down by one when it is positive and
leaves it at 0 otherwise; the resulting page, focus index and error are the same
whatever the field contents are.  On page 0, with a text input that keeps value and
focus flag on a left-arrow, any number of left-arrows leaves the observable form state
(page, focus index, error, every value and focus flag) unchanged. -/
theorem moveToPreviousPage_spec (ed : TextInput) (m : model) (hv : m.Valid) :
    (∃ r, Update ed m (.KeyMsg .KeyLeft) = some r ∧ r.m.err = m.err ∧ r.cmd ≠ .Quit ∧
      r.m.focusIndex = m.focusIndex ∧
      r.m.currentPage = (if m.currentPage > 0 then m.currentPage - 1 else 0) ∧
      ∀ inputs' : List Field, inputs'.length = m.inputs.length →
        ∃ r', Update ed { m with inputs := inputs' } (.KeyMsg .KeyLeft) = some r' ∧
          r'.m.currentPage = r.m.currentPage ∧ r'.m.focusIndex = r.m.focusIndex ∧
          r'.m.err = r.m.err) ∧
    (m.currentPage = 0 →
      (∀ f, (ed (.KeyMsg .KeyLeft) f).value = f.value ∧
        (ed (.KeyMsg .KeyLeft) f).focus = f.focus) →
      ∀ n : Nat, ∃ m', run ed m (List.replicate n (.KeyMsg .KeyLeft)) = some m' ∧
        formState m' = formState m) := by
  refine ⟨?_, fun hp hed n => keyLeft_first_page_iter ed hed n m hv hp⟩
  obtain ⟨h0, h1, h2, h3, h4⟩ := hv
  by_cases c : m.currentPage > 0
  · obtain ⟨x, _, hd⟩ := delegate_ok ed { m with currentPage := m.currentPage - 1 }
      (.KeyMsg .KeyLeft) h2 h3
    refine ⟨⟨_, _, none⟩, by simp only [Update, switchMsg, c, if_true]; exact hd,
      by rfl, by simp, by rfl, by simp [c], ?_⟩
    intro inputs' hlen
    obtain ⟨x', _, hd'⟩ := delegate_ok ed
      { m with inputs := inputs', currentPage := m.currentPage - 1 }
      (.KeyMsg .KeyLeft) h2 (by simpa [hlen] using h3)
    exact ⟨⟨_, _, none⟩, by simp only [Update, switchMsg, c, if_true]; exact hd',
      by rfl, by rfl, by rfl⟩
  · obtain ⟨x, _, hd⟩ := delegate_ok ed m (.KeyMsg .KeyLeft) h2 h3
    have hz : m.currentPage = 0 := by omega
    refine ⟨⟨_, _, none⟩, by simp only [Update, switchMsg, c, if_false]; exact hd,
      by rfl, by simp, by rfl, by simp [c, hz], ?_⟩
    intro inputs' hlen
    obtain ⟨x', _, hd'⟩ := delegate_ok ed { m with inputs := inputs' }
      (.KeyMsg .KeyLeft) h2 (by simpa [hlen] using h3)
    exact ⟨⟨_, _, none⟩, by simp only [Update, switchMsg, c, if_false]; exact hd',
      by rfl, by rfl, by rfl⟩

/-- Witness for C5: the initial form (page 0) with the sample text input, which keeps
value and focus flag on a left-arrow. -/
theorem moveToPreviousPage_spec_witness :
    initialModel.Valid ∧
    (∀ f, (sampleEditor (.KeyMsg .KeyLeft) f).value = f.value ∧
      (sampleEditor (.KeyMsg .KeyLeft) f).focus = f.focus) ∧
    (∃ r, Update sampleEditor initialModel (.KeyMsg .KeyLeft) = some r ∧
      r.m.err = initialModel.err ∧ r.cmd ≠ .Quit ∧
      r.m.focusIndex = initialModel.focusIndex ∧
      r.m.currentPage =
        (if initialModel.currentPage > 0 then initialModel.currentPage - 1 else 0) ∧
      ∀ inputs' : List Field, inputs'.length = initialModel.inputs.length →
        ∃ r', Update sampleEditor { initialModel with inputs := inputs' }
            (.KeyMsg .KeyLeft) = some r' ∧
          r'.m.currentPage = r.m.currentPage ∧ r'.m.focusIndex = r.m.focusIndex ∧
          r'.m.err = r.m.err) ∧
    ∀ n : Nat, ∃ m', run sampleEditor initialModel
        (List.replicate n (.KeyMsg .KeyLeft)) = some m' ∧
      formState m' = formState initialModel :=
  ⟨by decide, sampleEditor_keyLeft,
    (moveToPreviousPage_spec sampleEditor initialModel (by decide)).1,
    (moveToPreviousPage_spec sampleEditor initialModel (by decide)).2 rfl
      sampleEditor_keyLeft⟩

/-- C6.  Tab on a well-formed state: when `focusIndex` is below the last index of the
current page it grows by one and the page stays; otherwise, when there is a next page,
`currentPage` grows by one and `focusIndex` becomes 0, whatever the field values of the
page being left; otherwise both stay.  Tab never returns the quit command and leaves
`err` as it was.  Enter, whenever it does not take the submission branch, runs the
same switch branch as tab (same model before delegation, focus flags included) and
reaches the same page and focus index, without quitting or touching `err`; the focus
flags after delegation agree as soon as the text input treats the flag alike on both
keys. -/
theorem focusNext_spec (ed : TextInput) (m : model) (hv : m.Valid) :
    ∃ page rt, idx? m.inputsByPage m.currentPage = some page ∧
      Update ed m (.KeyMsg .KeyTab) = some rt ∧
      (m.focusIndex < (page.len : Int) - 1 →
        rt.m.focusIndex = m.focusIndex + 1 ∧ rt.m.currentPage = m.currentPage) ∧
      (¬ m.focusIndex < (page.len : Int) - 1 →
        m.currentPage < (m.inputsByPage.length : Int) - 1 →
        rt.m.currentPage = m.currentPage + 1 ∧ rt.m.focusIndex = 0) ∧
      (¬ m.focusIndex < (page.len : Int) - 1 →
        ¬ m.currentPage < (m.inputsByPage.length : Int) - 1 →
        rt.m.currentPage = m.currentPage ∧ rt.m.focusIndex = m.focusIndex) ∧
      rt.cmd ≠ .Quit ∧ rt.m.err = m.err ∧
      (m.focusIndex ≠ (m.inputs.length : Int) - 1 →
        switchMsg m (.KeyMsg .KeyEnter) = switchMsg m (.KeyMsg .KeyTab) ∧
        ∃ re, Update ed m (.KeyMsg .KeyEnter) = some re ∧
          re.m.currentPage = rt.m.currentPage ∧ re.m.focusIndex = rt.m.focusIndex ∧
          re.cmd ≠ .Quit ∧ re.m.err = m.err ∧
          ((∀ f, (ed (.KeyMsg .KeyEnter) f).focus = (ed (.KeyMsg .KeyTab) f).focus) →
            re.m.inputs.map (fun f => f.focus) = rt.m.inputs.map (fun f => f.focus))) := by
  obtain ⟨page, m1, page1, hp, hm1, hp1, hf0, hf1, herr, hsw⟩ := switchMsg_tab m hv
  have hlen : 
      (({ m1 with inputs := focusLoop page1 m1.focusIndex m1.inputs } : model).inputs.length : Int)
        = (m.inputs.length : Int) := by
    simp only [focusLoop_length]
    rw [hm1]; split_ifs <;> rfl
  obtain ⟨x, hx, hd⟩ := delegate_ok ed
    { m1 with inputs := focusLoop page1 m1.focusIndex m1.inputs } (.KeyMsg .KeyTab) hf0
    (by rw [hlen]; exact hf1)
  obtain ⟨x', hx', hd'⟩ := delegate_ok ed
    { m1 with inputs := focusLoop page1 m1.focusIndex m1.inputs } (.KeyMsg .KeyEnter) hf0
    (by rw [hlen]; exact hf1)
  have hxx : x' = x := by rw [hx] at hx'; exact (Option.some.inj hx').symm
  subst hxx
  refine ⟨page, ⟨_, _, none⟩, hp, by simp only [Update, hsw]; exact hd, ?_, ?_, ?_,
    by simp, by simpa using herr, ?_⟩
  · intro c1; rw [hm1]; simp [c1]
  · intro c1 c2; rw [hm1]; simp [c1, c2]
  · intro c1 c2; rw [hm1]; simp [c1, c2]
  · intro hne
    have hsw' : switchMsg m (.KeyMsg .KeyEnter) = switchMsg m (.KeyMsg .KeyTab) := by
      simp [switchMsg, hne]
    refine ⟨hsw', ⟨_, _, none⟩, by simp only [Update, hsw', hsw]; exact hd', by rfl, by rfl,
      by simp, by simpa using herr, ?_⟩
    intro hfoc
    simp only [List.map_set, hfoc]

/-- Witness for C6: the initial form. -/
theorem focusNext_spec_witness :
    initialModel.Valid ∧
    ∃ page rt, idx? initialModel.inputsByPage initialModel.currentPage = some page ∧
      Update sampleEditor initialModel (.KeyMsg .KeyTab) = some rt ∧
      (initialModel.focusIndex < (page.len : Int) - 1 →
        rt.m.focusIndex = initialModel.focusIndex + 1 ∧
        rt.m.currentPage = initialModel.currentPage) ∧
      (¬ initialModel.focusIndex < (page.len : Int) - 1 →
        initialModel.currentPage < (initialModel.inputsByPage.length : Int) - 1 →
        rt.m.currentPage = initialModel.currentPage + 1 ∧ rt.m.focusIndex = 0) ∧
      (¬ initialModel.focusIndex < (page.len : Int) - 1 →
        ¬ initialModel.currentPage < (initialModel.inputsByPage.length : Int) - 1 →
        rt.m.currentPage = initialModel.currentPage ∧
        rt.m.focusIndex = initialModel.focusIndex) ∧
      rt.cmd ≠ .Quit ∧ rt.m.err = initialModel.err ∧
      (initialModel.focusIndex ≠ (initialModel.inputs.length : Int) - 1 →
        switchMsg initialModel (.KeyMsg .KeyEnter) =
          switchMsg initialModel (.KeyMsg .KeyTab) ∧
        ∃ re, Update sampleEditor initialModel (.KeyMsg .KeyEnter) = some re ∧
          re.m.currentPage = rt.m.currentPage ∧ re.m.focusIndex = rt.m.focusIndex ∧
          re.cmd ≠ .Quit ∧ re.m.err = initialModel.err ∧
          ((∀ f, (sampleEditor (.KeyMsg .KeyEnter) f).focus =
              (sampleEditor (.KeyMsg .KeyTab) f).focus) →
            re.m.inputs.map (fun f => f.focus) = rt.m.inputs.map (fun f => f.focus))) :=
  ⟨by decide, focusNext_spec sampleEditor initialModel (by decide)⟩

/-- C7.  Shift-tab on a well-formed state never quits and leaves `err` as it was; when
`focusIndex` is positive it drops by one and the page stays; otherwise, when
`currentPage` is positive, the page drops by one and `focusIndex` becomes the last
index of that page (its number of fields minus one); otherwise both stay. -/
theorem focusPrevious_spec (ed : TextInput) (m : model) (hv : m.Valid) :
    ∃ r, Update ed m (.KeyMsg .KeyShiftTab) = some r ∧ r.cmd ≠ .Quit ∧ r.m.err = m.err ∧
      (m.focusIndex > 0 →
        r.m.focusIndex = m.focusIndex - 1 ∧ r.m.currentPage = m.currentPage) ∧
      (¬ m.focusIndex > 0 → m.currentPage > 0 →
        r.m.currentPage = m.currentPage - 1 ∧
        ∃ prev, idx? m.inputsByPage (m.currentPage - 1) = some prev ∧
          r.m.focusIndex = (prev.len : Int) - 1) ∧
      (¬ m.focusIndex > 0 → ¬ m.currentPage > 0 →
        r.m.currentPage = m.currentPage ∧ r.m.focusIndex = m.focusIndex) := by
  obtain ⟨h0, h1, h2, h3, h4⟩ := hv
  obtain ⟨page, hp, _⟩ := idx?_some_of_lt m.inputsByPage m.currentPage h0 h1
  by_cases c1 : m.focusIndex > 0
  · obtain ⟨x, hx, hd⟩ := delegate_ok ed
      { m with focusIndex := m.focusIndex - 1,
               inputs := focusLoop page (m.focusIndex - 1) m.inputs }
      (.KeyMsg .KeyShiftTab) (by simp; omega) (by simp [focusLoop_length]; omega)
    refine ⟨⟨_, _, none⟩, by simp only [Update, switchMsg, c1, if_true, hp]; exact hd,
      by simp, by rfl, ?_, ?_, ?_⟩
    · intro _; exact ⟨rfl, rfl⟩
    · intro h; exact absurd c1 h
    · intro h; exact absurd c1 h
  · by_cases c2 : m.currentPage > 0
    · obtain ⟨prev, hprev, _⟩ :=
        idx?_some_of_lt m.inputsByPage (m.currentPage - 1) (by omega) (by omega)
      have hpb := h4 prev (idx?_some_bounds hprev).2.2
      obtain ⟨x, hx, hd⟩ := delegate_ok ed
        { m with currentPage := m.currentPage - 1, focusIndex := (prev.len : Int) - 1,
                 inputs := focusLoop prev ((prev.len : Int) - 1) m.inputs }
        (.KeyMsg .KeyShiftTab) (by simp; omega) (by simp [focusLoop_length]; omega)
      refine ⟨⟨_, _, none⟩,
        by simp only [Update, switchMsg, c1, c2, if_true, if_false, hprev]; exact hd,
        by simp, by rfl, ?_, ?_, ?_⟩
      · intro h; exact absurd h c1
      · intro _ _; exact ⟨rfl, prev, hprev, rfl⟩
      · intro _ h; exact absurd c2 h
    · obtain ⟨x, hx, hd⟩ := delegate_ok ed
        { m with inputs := focusLoop page m.focusIndex m.inputs }
        (.KeyMsg .KeyShiftTab) h2 (by simp [focusLoop_length]; omega)
      refine ⟨⟨_, _, none⟩,
        by simp only [Update, switchMsg, c1, c2, if_false, hp]; exact hd,
        by simp, by rfl, ?_, ?_, ?_⟩
      · intro h; exact absurd h c1
      · intro _ h; exact absurd h c2
      · intro _ _; exact ⟨rfl, rfl⟩

/-- Witness for C7: the first field of page 1, from which shift-tab crosses back to the
last field of page 0. -/
theorem focusPrevious_spec_witness :
    ({ initialModel with currentPage := 1 } : model).Valid ∧
    ∃ r, Update sampleEditor { initialModel with currentPage := 1 }
        (.KeyMsg .KeyShiftTab) = some r ∧
      r.cmd ≠ .Quit ∧ r.m.err = ({ initialModel with currentPage := 1 } : model).err ∧
      (({ initialModel with currentPage := 1 } : model).focusIndex > 0 →
        r.m.focusIndex = ({ initialModel with currentPage := 1 } : model).focusIndex - 1 ∧
        r.m.currentPage = ({ initialModel with currentPage := 1 } : model).currentPage) ∧
      (¬ ({ initialModel with currentPage := 1 } : model).focusIndex > 0 →
        ({ initialModel with currentPage := 1 } : model).currentPage > 0 →
        r.m.currentPage = ({ initialModel with currentPage := 1 } : model).currentPage - 1 ∧
        ∃ prev, idx? ({ initialModel with currentPage := 1 } : model).inputsByPage
            (({ initialModel with currentPage := 1 } : model).currentPage - 1) = some prev ∧
          r.m.focusIndex = (prev.len : Int) - 1) ∧
      (¬ ({ initialModel with currentPage := 1 } : model).focusIndex > 0 →
        ¬ ({ initialModel with currentPage := 1 } : model).currentPage > 0 →
        r.m.currentPage = ({ initialModel with currentPage := 1 } : model).currentPage ∧
        r.m.focusIndex = ({ initialModel with currentPage := 1 } : model).focusIndex) :=
  ⟨by decide, focusPrevious_spec sampleEditor { initialModel with currentPage := 1 } (by decide)⟩

/-- C8 (code defect).  Enter on the very last field does not submit, whatever the text
input does.  Twelve tabs take the initial form to page 2, `focusIndex = 4`, the last
field of the catalog; enter there returns what the text input hands back, not quit, prints
nothing and leaves page and focus index as they are.  The same holds with "150" in the
start-gas field and "50" in the end-gas field (flat indices 11 and 12).  The submission
test is `focusIndex == len(inputs) - 1`, that is `focusIndex = 12`; forcing that value,
the branch reads flat indices 9 and 10 (weight and suit type), so it quits with a parse
error and still prints nothing. -/
theorem enter_on_last_field_does_not_submit (ed : TextInput) :
    (∃ m r, run ed initialModel (List.replicate 12 (.KeyMsg .KeyTab)) = some m ∧
      Reachable ed m ∧ m.currentPage = 2 ∧ m.focusIndex = 4 ∧
      m.inputsByPage = [⟨0, 3⟩, ⟨3, 5⟩, ⟨8, 5⟩] ∧
      Update ed m (.KeyMsg .KeyEnter) = some r ∧
      r.cmd ≠ .Quit ∧ r.logged = none ∧ r.m.currentPage = 2 ∧ r.m.focusIndex = 4) ∧
    (∃ r, Update ed
        (withValue (withValue { initialModel with currentPage := 2, focusIndex := 4 }
          11 "150") 12 "50") (.KeyMsg .KeyEnter) = some r ∧
      r.cmd ≠ .Quit ∧ r.logged = none ∧ r.m.err = none) ∧
    (∃ r, Update ed
        (withValue (withValue { initialModel with currentPage := 2, focusIndex := 12 }
          11 "150") 12 "50") (.KeyMsg .KeyEnter) = some r ∧
      r.cmd = .Quit ∧ r.logged = none ∧
      r.m.err = some (.NumError "Atoi" "" .ErrSyntax)) := by
  have h : ∃ m r, run ed initialModel (List.replicate 12 (.KeyMsg .KeyTab)) = some m ∧
      m.currentPage = 2 ∧ m.focusIndex = 4 ∧
      m.inputsByPage = [⟨0, 3⟩, ⟨3, 5⟩, ⟨8, 5⟩] ∧
      Update ed m (.KeyMsg .KeyEnter) = some r ∧
      r.cmd ≠ .Quit ∧ r.logged = none ∧ r.m.currentPage = 2 ∧ r.m.focusIndex = 4 := by
    simp [run, Update, switchMsg, delegate, idx?, initialModel, focusLoop, focusStep,
      List.range, List.range.loop]
  obtain ⟨m, r, h1, h2⟩ := h
  refine ⟨⟨m, r, h1, run_reachable _ _ _ _ Reachable.init h1, h2⟩, ?_, ?_⟩
  · simp [Update, switchMsg, delegate, idx?, initialModel, withValue, focusLoop, focusStep,
      List.range, List.range.loop]
  · have hc : calculateGasRemaining "" "" = .error (.NumError "Atoi" "" .ErrSyntax) := by
      decide
    simp [Update, switchMsg, idx?, initialModel, withValue, newInput, Field.New, hc]

/-- C9 as stated fails: `("40", "100")` gives -60, not -40; "9223372036854775808" is a
valid base-10 integer and is rejected (out of the range of `int`); and
-9223372036854775808 - 1 wraps around to 9223372036854775807. -/
theorem calculateGasRemaining_refutes_stated_examples :
    calculateGasRemaining "40" "100" = .ok (-60) ∧
    isBase10Integer "9223372036854775808" ∧ isBase10Integer "0" ∧
    calculateGasRemaining "9223372036854775808" "0" =
      .error (.NumError "Atoi" "9223372036854775808" .ErrRange) ∧
    isBase10Integer "-9223372036854775808" ∧ isBase10Integer "1" ∧
    calculateGasRemaining "-9223372036854775808" "1" = .ok 9223372036854775807 := by
  decide

/-- C9, amended.  `calculateGasRemaining` fails if and only if one of the two strings is
not an optionally signed run of ASCII digits denoting a value in `[-2^63, 2^63 - 1]`,
and the error is then the `Atoi` error of one of the two strings; otherwise it returns
`first - second` in 64-bit two's-complement arithmetic, which is exactly
`first - second` whenever that difference fits.  `("100", "40")` gives 60,
`("40", "100")` gives -60 and `("abc", "40")` fails. -/
theorem calculateGasRemaining_spec (first second : String) :
    ((∃ e, calculateGasRemaining first second = .error e) ↔
      ¬ (parsesAsInt64 first ∧ parsesAsInt64 second)) ∧
    (∀ e, calculateGasRemaining first second = .error e →
      ∃ k, e = .NumError "Atoi" first k ∨ e = .NumError "Atoi" second k) ∧
    (parsesAsInt64 first → parsesAsInt64 second →
      calculateGasRemaining first second =
        .ok (wrapInt64 (base10Value first - base10Value second))) ∧
    (parsesAsInt64 first → parsesAsInt64 second →
      fitsInt64 (base10Value first - base10Value second) →
      calculateGasRemaining first second = .ok (base10Value first - base10Value second)) ∧
    calculateGasRemaining "100" "40" = .ok 60 ∧
    calculateGasRemaining "40" "100" = .ok (-60) ∧
    calculateGasRemaining "abc" "40" = .error (.NumError "Atoi" "abc" .ErrSyntax) := by
  have hok : parsesAsInt64 first → parsesAsInt64 second →
      calculateGasRemaining first second =
        .ok (wrapInt64 (base10Value first - base10Value second)) := by
    intro h1 h2
    have e1 := (Atoi_ok_iff first _).mpr ⟨h1.1, h1.2, rfl⟩
    have e2 := (Atoi_ok_iff second _).mpr ⟨h2.1, h2.2, rfl⟩
    simp [calculateGasRemaining, e1, e2]
  refine ⟨?_, ?_, hok, ?_, by decide, by decide, by decide⟩
  · constructor
    · rintro ⟨e, he⟩ ⟨h1, h2⟩
      rw [hok h1 h2] at he; cases he
    · intro hn
      rcases Atoi_ok_or_error first with ⟨v1, e1⟩ | ⟨k1, e1⟩
      · rcases Atoi_ok_or_error second with ⟨v2, e2⟩ | ⟨k2, e2⟩
        · exfalso
          have a1 := (Atoi_ok_iff first v1).mp e1
          have a2 := (Atoi_ok_iff second v2).mp e2
          exact hn ⟨⟨a1.1, a1.2.1⟩, ⟨a2.1, a2.2.1⟩⟩
        · exact ⟨.NumError "Atoi" second k2, by simp [calculateGasRemaining, e1, e2]⟩
      · exact ⟨.NumError "Atoi" first k1, by simp [calculateGasRemaining, e1]⟩
  · intro e he
    rcases Atoi_ok_or_error first with ⟨v1, e1⟩ | ⟨k1, e1⟩
    · rcases Atoi_ok_or_error second with ⟨v2, e2⟩ | ⟨k2, e2⟩
      · simp [calculateGasRemaining, e1, e2] at he
      · refine ⟨k2, Or.inr ?_⟩
        simp [calculateGasRemaining, e1, e2] at he
        exact he.symm
    · refine ⟨k1, Or.inl ?_⟩
      simp [calculateGasRemaining, e1] at he
      exact he.symm
  · intro h1 h2 h3
    rw [hok h1 h2, wrapInt64_of_fits _ h3]

/-- C10 (code defect).  An editing key is delegated to `inputs[focusIndex]`, the flat
index, not to the field at `focusIndex` on page `currentPage`.  Five tabs take the
initial form to page 1 (flat indices 3 to 7), `focusIndex = 2`, so the field at
`(currentPage, focusIndex)` is flat index 5; typing "x" there changes the value of
flat index 2, a field of page 0, and leaves flat index 5 empty. -/
theorem edit_is_delegated_to_flat_focusIndex :
    ∃ m r, run sampleEditor initialModel (List.replicate 5 (.KeyMsg .KeyTab)) = some m ∧
      Reachable sampleEditor m ∧ m.currentPage = 1 ∧ m.focusIndex = 2 ∧
      idx? m.inputsByPage m.currentPage = some ⟨3, 5⟩ ∧
      m.inputs.map (fun f => f.value) = List.replicate 13 "" ∧
      Update sampleEditor m (.KeyMsg (.KeyRunes "x")) = some r ∧
      r.m.currentPage = 1 ∧ r.m.focusIndex = 2 ∧
      r.m.inputs.map (fun f => f.value) =
        ["", "", "x", "", "", "", "", "", "", "", "", "", ""] := by
  have h : ∃ m r, run sampleEditor initialModel (List.replicate 5 (.KeyMsg .KeyTab)) = some m ∧
      m.currentPage = 1 ∧ m.focusIndex = 2 ∧
      idx? m.inputsByPage m.currentPage = some ⟨3, 5⟩ ∧
      m.inputs.map (fun f => f.value) = List.replicate 13 "" ∧
      Update sampleEditor m (.KeyMsg (.KeyRunes "x")) = some r ∧
      r.m.currentPage = 1 ∧ r.m.focusIndex = 2 ∧
      r.m.inputs.map (fun f => f.value) =
        ["", "", "x", "", "", "", "", "", "", "", "", "", ""] :=
    ⟨_, _, rfl, by decide, by decide, by decide, by decide, rfl, by decide, by decide,
      by decide⟩
  obtain ⟨m, r, h1, h2⟩ := h
  exact ⟨m, r, h1, run_reachable _ _ _ _ Reachable.init h1, h2⟩

/-- C11 as stated fails in both directions.  With "150" and "abc" in the two inputs the
live display reads, and no error set, `View` still renders a gas line, "Gas remaining:
150" (the start value, nothing subtracted).  With "150" and "50" there and an error
set, no gas line is rendered. -/
theorem liveDisplay_refutes_stated_iff :
    View sampleFieldView (withValue (withValue initialModel 9 "150") 10 "abc") =
      some ("Enter your dive details\n\n> Name your dive\n> Where did you dive?\n" ++
        "> When did you dive?\n\nPage 1 of 3\n\nGas remaining: 150\n" ++
        "\n(Press Enter to submit, Tab to switch fields, Esc to quit)") ∧
    View sampleFieldView
        (withValue (withValue { initialModel with err := some validationError } 9 "150")
          10 "50") =
      some ("Enter your dive details\n\n> Name your dive\n> Where did you dive?\n" ++
        "> When did you dive?\n\nPage 1 of 3\n" ++
        "\n(Press Enter to submit, Tab to switch fields, Esc to quit)") := by
  set_option maxRecDepth 100000 in decide

/-- C11, amended.  For every well-formed state with at least 11 inputs, `View` returns
the header, the fields of the current page, the page indicator, then the gas text, then
the footer.  With no error set, if the two inputs read by the display (flat indices 9
and 10) are non-empty and both denote integers that fit a 64-bit `int`, the gas text is
the line "Gas remaining: n" with n = first - second in 64-bit arithmetic.  If an error
is set, or one of the two values is empty, or the first value does not parse, the gas
text is empty.  Nothing is stated for a first value that parses next to a non-empty
second value that does not.  `View` yields text only; it has no way to change `err`. -/
theorem liveDisplay_spec (fieldView : Field → String) (m : model) (hv : m.Valid)
    (h10 : 10 < m.inputs.length) :
    ∃ a b page, idx? m.inputs 9 = some a ∧ idx? m.inputs 10 = some b ∧
      idx? m.inputsByPage m.currentPage = some page ∧
      (∃ gas, gasRemainingText m = some gas ∧
        View fieldView m =
          some ((pageFields m.inputs page).foldl
                (fun form input => form ++ (fieldView input ++ "\n"))
                "Enter your dive details\n\n" ++
              ("\nPage " ++ Itoa (m.currentPage + 1) ++ " of " ++
                Itoa (m.inputsByPage.length : Int) ++ "\n") ++
              gas ++ "\n(Press Enter to submit, Tab to switch fields, Esc to quit)")) ∧
      (m.err = none → a.value ≠ "" → b.value ≠ "" →
        parsesAsInt64 a.value → parsesAsInt64 b.value →
        gasRemainingText m =
          some ("\nGas remaining: " ++
            Itoa (wrapInt64 (base10Value a.value - base10Value b.value)) ++ "\n")) ∧
      (m.err ≠ none ∨ a.value = "" ∨ b.value = "" ∨ ¬ parsesAsInt64 a.value →
        gasRemainingText m = some "") := by
  obtain ⟨a, ha, _⟩ := idx?_some_of_lt m.inputs 9 (by omega) (by omega)
  obtain ⟨b, hb, _⟩ := idx?_some_of_lt m.inputs 10 (by omega) (by omega)
  obtain ⟨page, hp, _⟩ := idx?_some_of_lt m.inputsByPage m.currentPage hv.1 hv.2.1
  obtain ⟨gas, hgas⟩ := gasRemainingText_total m h10
  refine ⟨a, b, page, ha, hb, hp, ⟨gas, hgas, by simp only [View, hp, hgas]⟩, ?_, ?_⟩
  · intro he hane hbne hpa hpb
    simp [gasRemainingText, he, ha, hb, hane, hbne, Atoi_of_parses _ hpa, Atoi_of_parses _ hpb]
  · intro h
    by_cases he : m.err = none
    · by_cases hane : a.value = ""
      · simp [gasRemainingText, he, ha, hane]
      · by_cases hbne : b.value = ""
        · simp [gasRemainingText, he, ha, hb, hane, hbne]
        · have hnp : ¬ parsesAsInt64 a.value := by
            rcases h with h | h | h | h
            · exact absurd he h
            · exact absurd h hane
            · exact absurd h hbne
            · exact h
          obtain ⟨k, hk⟩ := Atoi_error_of_not_parses _ hnp
          simp [gasRemainingText, he, ha, hb, hane, hbne, hk]
    · simp [gasRemainingText, he]

/-- Witness for the amended C11: "150" and "50" in the two inputs the display reads. -/
theorem liveDisplay_spec_witness :
    gasEntered.Valid ∧ 10 < gasEntered.inputs.length ∧
    gasRemainingText gasEntered = some "\nGas remaining: 100\n" ∧
    ∃ a b page, idx? gasEntered.inputs 9 = some a ∧ idx? gasEntered.inputs 10 = some b ∧
      idx? gasEntered.inputsByPage gasEntered.currentPage = some page ∧
      (∃ gas, gasRemainingText gasEntered = some gas ∧
        View sampleFieldView gasEntered =
          some ((pageFields gasEntered.inputs page).foldl
                (fun form input => form ++ (sampleFieldView input ++ "\n"))
                "Enter your dive details\n\n" ++
              ("\nPage " ++ Itoa (gasEntered.currentPage + 1) ++ " of " ++
                Itoa (gasEntered.inputsByPage.length : Int) ++ "\n") ++
              gas ++ "\n(Press Enter to submit, Tab to switch fields, Esc to quit)")) ∧
      (gasEntered.err = none → a.value ≠ "" → b.value ≠ "" →
        parsesAsInt64 a.value → parsesAsInt64 b.value →
        gasRemainingText gasEntered =
          some ("\nGas remaining: " ++
            Itoa (wrapInt64 (base10Value a.value - base10Value b.value)) ++ "\n")) ∧
      (gasEntered.err ≠ none ∨ a.value = "" ∨ b.value = "" ∨ ¬ parsesAsInt64 a.value →
        gasRemainingText gasEntered = some "") :=
  ⟨by decide, by decide, by decide,
    liveDisplay_spec sampleFieldView gasEntered (by decide) (by decide)⟩

/-- C12 as stated fails on the reported value: with "-9223372036854775808" and "1" in
the two inputs the submission branch reads, both valid integers that fit a 64-bit
`int`, the evaluator succeeds and the session quits, but the value printed is
9223372036854775807, while first - second is -9223372036854775809. -/
theorem submission_reports_wrapped_difference :
    parsesAsInt64 "-9223372036854775808" ∧ parsesAsInt64 "1" ∧
    base10Value "-9223372036854775808" - base10Value "1" = -9223372036854775809 ∧
    Update sampleEditor
        (withValue (withValue { initialModel with currentPage := 2, focusIndex := 12 }
          9 "-9223372036854775808") 10 "1") (.KeyMsg .KeyEnter) =
      some ⟨withValue (withValue { initialModel with currentPage := 2, focusIndex := 12 }
          9 "-9223372036854775808") 10 "1", .Quit, some 9223372036854775807⟩ := by
  set_option maxRecDepth 100000 in decide

/-- C12, amended.  Whenever enter takes the submission branch
(`focusIndex = len(inputs) - 1`, at least 11 inputs), `Update` returns the quit command
and leaves page, focus index, the inputs and the page layout unchanged.  If the
evaluator fails on the two values it reads (flat indices 9 and 10), `err` becomes that
parse error and nothing is printed; if it succeeds, `err` is left as it was and the
evaluator's result is printed, which for values that parse is first - second in 64-bit
two's-complement arithmetic, and exactly first - second when that difference fits. -/
theorem submission_always_quits (ed : TextInput) (m : model)
    (hf : m.focusIndex = (m.inputs.length : Int) - 1) (h10 : 10 < m.inputs.length) :
    ∃ a b r, idx? m.inputs 9 = some a ∧ idx? m.inputs 10 = some b ∧
      Update ed m (.KeyMsg .KeyEnter) = some r ∧ r.cmd = .Quit ∧
      r.m.currentPage = m.currentPage ∧ r.m.focusIndex = m.focusIndex ∧
      r.m.inputs = m.inputs ∧ r.m.inputsByPage = m.inputsByPage ∧
      (∀ e, calculateGasRemaining a.value b.value = .error e →
        r.m.err = some e ∧ r.logged = none) ∧
      (∀ g, calculateGasRemaining a.value b.value = .ok g →
        r.m.err = m.err ∧ r.logged = some g) ∧
      (parsesAsInt64 a.value → parsesAsInt64 b.value →
        r.m.err = m.err ∧
        r.logged = some (wrapInt64 (base10Value a.value - base10Value b.value)) ∧
        (fitsInt64 (base10Value a.value - base10Value b.value) →
          r.logged = some (base10Value a.value - base10Value b.value))) := by
  obtain ⟨a, ha, _⟩ := idx?_some_of_lt m.inputs 9 (by omega) (by omega)
  obtain ⟨b, hb, _⟩ := idx?_some_of_lt m.inputs 10 (by omega) (by omega)
  have hsw : switchMsg m (.KeyMsg .KeyEnter) =
      match calculateGasRemaining a.value b.value with
      | .error err => some (.ret ⟨{ m with err := some err }, .Quit, none⟩)
      | .ok gasRemaining => some (.ret ⟨m, .Quit, some gasRemaining⟩) := by
    simp only [switchMsg]
    rw [if_pos hf, ha, hb]
  cases hc : calculateGasRemaining a.value b.value with
  | error e =>
    rw [hc] at hsw
    refine ⟨a, b, ⟨{ m with err := some e }, .Quit, none⟩, ha, hb, by simp [Update, hsw],
      rfl, rfl, rfl, rfl, rfl, ?_, ?_, ?_⟩
    · intro e' he'; rw [hc] at he'; cases he'; exact ⟨rfl, rfl⟩
    · intro g hg; rw [hc] at hg; cases hg
    · intro h1 h2
      rw [calculateGasRemaining_of_parses _ _ h1 h2] at hc
      cases hc
  | ok g =>
    rw [hc] at hsw
    refine ⟨a, b, ⟨m, .Quit, some g⟩, ha, hb, by simp [Update, hsw],
      rfl, rfl, rfl, rfl, rfl, ?_, ?_, ?_⟩
    · intro e' he'; rw [hc] at he'; cases he'
    · intro g' hg; rw [hc] at hg; cases hg; exact ⟨rfl, rfl⟩
    · intro h1 h2
      rw [calculateGasRemaining_of_parses _ _ h1 h2] at hc
      cases hc
      exact ⟨rfl, rfl, fun hfit => by rw [wrapInt64_of_fits _ hfit]⟩

/-- Witness for the amended C12: `focusIndex = 12`, with "150" and "50" in the inputs the branch
reads; the session quits and 100 is printed. -/
theorem submission_always_quits_witness :
    submitState.focusIndex = (submitState.inputs.length : Int) - 1 ∧
    10 < submitState.inputs.length ∧
    Update sampleEditor submitState (.KeyMsg .KeyEnter) = some ⟨submitState, .Quit, some 100⟩ ∧
    ∃ a b r, idx? submitState.inputs 9 = some a ∧ idx? submitState.inputs 10 = some b ∧
      Update sampleEditor submitState (.KeyMsg .KeyEnter) = some r ∧ r.cmd = .Quit ∧
      r.m.currentPage = submitState.currentPage ∧ r.m.focusIndex = submitState.focusIndex ∧
      r.m.inputs = submitState.inputs ∧ r.m.inputsByPage = submitState.inputsByPage ∧
      (∀ e, calculateGasRemaining a.value b.value = .error e →
        r.m.err = some e ∧ r.logged = none) ∧
      (∀ g, calculateGasRemaining a.value b.value = .ok g →
        r.m.err = submitState.err ∧ r.logged = some g) ∧
      (parsesAsInt64 a.value → parsesAsInt64 b.value →
        r.m.err = submitState.err ∧
        r.logged = some (wrapInt64 (base10Value a.value - base10Value b.value)) ∧
        (fitsInt64 (base10Value a.value - base10Value b.value) →
          r.logged = some (base10Value a.value - base10Value b.value))) :=
  ⟨by decide, by decide, by decide,
    submission_always_quits sampleEditor submitState (by decide) (by decide)⟩

/-- C13 (code defect).  The evaluator is fed flat indices 9 and 10, whose placeholders
are "Enter your weight" and "Enter your suit type e.g. wetsuit"; the two gas fields
(start gas, then end gas) are flat indices 11 and 12.  With "150" and "50" in the two
gas fields the display shows no gas line and a forced submission quits with a parse
error for the empty weight; with "150" and "50" in weight and suit type the display
shows "Gas remaining: 100" and the submission prints 100. -/
theorem evaluator_reads_weight_and_suit_type :
    (initialModel.inputs.map (fun f => f.Placeholder))[9]? = some "Enter your weight" ∧
    (initialModel.inputs.map (fun f => f.Placeholder))[10]? =
      some "Enter your suit type e.g. wetsuit" ∧
    (initialModel.inputs.map (fun f => f.Placeholder))[11]? = some "Enter your start gas" ∧
    (initialModel.inputs.map (fun f => f.Placeholder))[12]? = some "Enter your end gas" ∧
    gasRemainingText (withValue (withValue initialModel 11 "150") 12 "50") = some "" ∧
    gasRemainingText (withValue (withValue initialModel 9 "150") 10 "50") =
      some "\nGas remaining: 100\n" ∧
    Update sampleEditor
        (withValue (withValue { initialModel with currentPage := 2, focusIndex := 12 }
          11 "150") 12 "50") (.KeyMsg .KeyEnter) =
      some ⟨{ withValue (withValue { initialModel with currentPage := 2, focusIndex := 12 }
          11 "150") 12 "50" with err := some (.NumError "Atoi" "" .ErrSyntax) },
        .Quit, none⟩ ∧
    Update sampleEditor
        (withValue (withValue { initialModel with currentPage := 2, focusIndex := 12 }
          9 "150") 10 "50") (.KeyMsg .KeyEnter) =
      some ⟨withValue (withValue { initialModel with currentPage := 2, focusIndex := 12 }
          9 "150") 10 "50", .Quit, some 100⟩ := by
  set_option maxRecDepth 100000 in decide

/-- C14.  For every well-formed state and each of the keys right-arrow, left-arrow, tab,
shift-tab and enter (enter outside the submission branch), with a text input that keeps
a field's value on that key, `Update` returns and the value of every input is what it
was before, in the same order and number. -/
theorem values_persist_across_navigation (ed : TextInput) (m : model)
    (key : KeyType) (hv : m.Valid)
    (hkey : key = .KeyRight ∨ key = .KeyLeft ∨ key = .KeyTab ∨ key = .KeyShiftTab ∨
      key = .KeyEnter)
    (hnt : key = .KeyEnter → m.focusIndex ≠ (m.inputs.length : Int) - 1)
    (hed : ∀ f, (ed (.KeyMsg key) f).value = f.value) :
    ∃ r, Update ed m (.KeyMsg key) = some r ∧
      r.m.inputs.map (fun f => f.value) = m.inputs.map (fun f => f.value) ∧
      r.m.inputs.length = m.inputs.length := by
  obtain ⟨r, hr⟩ := Update_total ed m (.KeyMsg key) hv
    (fun h => Or.inl (hnt (by cases h; rfl)))
  obtain ⟨_, hl, _, hval⟩ := Update_frame ed m _ r hr
  exact ⟨r, hr, hval hed, hl⟩

/-- Witness for C14: tab on page 0 of the filled-in example state. -/
theorem values_persist_across_navigation_witness :
    page0FilledAfterError.Valid ∧
    (∀ f, (sampleEditor (.KeyMsg .KeyTab) f).value = f.value) ∧
    ∃ r, Update sampleEditor page0FilledAfterError (.KeyMsg .KeyTab) = some r ∧
      r.m.inputs.map (fun f => f.value) =
        page0FilledAfterError.inputs.map (fun f => f.value) ∧
      r.m.inputs.length = page0FilledAfterError.inputs.length :=
  ⟨by decide, sampleEditor_keyTab_value,
    values_persist_across_navigation sampleEditor page0FilledAfterError .KeyTab (by decide)
      (by decide) (fun h => by cases h) sampleEditor_keyTab_value⟩

/-- C15.  The initial form has 13 inputs and the three pages `[0,3)`, `[3,8)`, `[8,13)`
(sizes 3, 5, 5).  Every reachable state has the same 13 inputs and the same three page
slices; the pages concatenated in order are the full input sequence; every input index
lies in exactly one page; and no message changes the number of inputs or the page
slices. -/
theorem catalog_partition_fixed (ed : TextInput) (m : model)
    (h : Reachable ed m) :
    initialModel.inputs.length = 13 ∧
    initialModel.inputsByPage = [⟨0, 3⟩, ⟨3, 5⟩, ⟨8, 5⟩] ∧
    m.inputs.length = 13 ∧ m.inputsByPage = [⟨0, 3⟩, ⟨3, 5⟩, ⟨8, 5⟩] ∧
    (m.inputsByPage.map (pageFields m.inputs)).flatten = m.inputs ∧
    (∀ i, i < m.inputs.length →
      (m.inputsByPage.filter (fun s => s.off ≤ i ∧ i < s.off + s.len)).length = 1) ∧
    ∀ msg r, Update ed m msg = some r →
      r.m.inputs.length = m.inputs.length ∧ r.m.inputsByPage = m.inputsByPage := by
  obtain ⟨hl, hp, _⟩ := h.inRange
  refine ⟨rfl, rfl, hl, hp, ?_, ?_, ?_⟩
  · rw [hp]
    simp only [List.map_cons, List.map_nil, List.flatten_cons, List.flatten_nil, List.append_nil]
    rw [← List.append_assoc]
    exact pages_concat m.inputs hl
  · rw [hp, hl]
    decide
  · intro msg r hr
    obtain ⟨h1, h2, _, _⟩ := Update_frame ed m msg r hr
    exact ⟨h2, h1⟩

/-- Witness for C15: the initial form. -/
theorem catalog_partition_fixed_witness :
    Reachable sampleEditor initialModel ∧
    initialModel.inputs.length = 13 ∧
    initialModel.inputsByPage = [⟨0, 3⟩, ⟨3, 5⟩, ⟨8, 5⟩] ∧
    initialModel.inputs.length = 13 ∧
    initialModel.inputsByPage = [⟨0, 3⟩, ⟨3, 5⟩, ⟨8, 5⟩] ∧
    (initialModel.inputsByPage.map (pageFields initialModel.inputs)).flatten =
      initialModel.inputs ∧
    (∀ i, i < initialModel.inputs.length →
      (initialModel.inputsByPage.filter
        (fun s => s.off ≤ i ∧ i < s.off + s.len)).length = 1) ∧
    ∀ msg r, Update sampleEditor initialModel msg = some r →
      r.m.inputs.length = initialModel.inputs.length ∧
      r.m.inputsByPage = initialModel.inputsByPage :=
  ⟨Reachable.init, catalog_partition_fixed sampleEditor initialModel Reachable.init⟩

/-- C16.  In every reachable state `focusIndex` is at most 4 while the submission test
asks for `focusIndex = len(inputs) - 1 = 12`: enter runs the same switch branch as tab,
`Update` returns what the text input hands back (not quit) and prints nothing.  For every
message `Update` returns, and the command is quit exactly for the cancel keys ctrl-c,
ctrl-d and esc. -/
theorem enter_never_submits_when_reachable (ed : TextInput) (m : model)
    (h : Reachable ed m) :
    m.focusIndex ≤ 4 ∧ (m.inputs.length : Int) - 1 = 12 ∧
    switchMsg m (.KeyMsg .KeyEnter) = switchMsg m (.KeyMsg .KeyTab) ∧
    (∃ r, Update ed m (.KeyMsg .KeyEnter) = some r ∧ r.cmd ≠ .Quit ∧ r.logged = none) ∧
    ∀ msg, ∃ r, Update ed m msg = some r ∧ (r.cmd = .Quit ↔ isCancel msg) := by
  have hi := h.inRange
  obtain ⟨hl, hp, h0, h1, h2, h3⟩ := hi
  have hne : m.focusIndex ≠ (m.inputs.length : Int) - 1 := by rw [hl]; omega
  have htot : ∀ msg, ∃ r, Update ed m msg = some r := fun msg =>
    Update_total ed m msg h.valid (fun _ => Or.inl hne)
  refine ⟨h3, by rw [hl]; rfl, by simp [switchMsg, hne], ?_, ?_⟩
  · obtain ⟨r, hr⟩ := htot (.KeyMsg .KeyEnter)
    have hq := Update_quit_iff ed m _ r hne hr
    refine ⟨r, hr, ?_, hq.2⟩
    rcases Update_cases ed m _ r hr with hs | ⟨m1, hs, hd⟩
    · have hsw : switchMsg m (.KeyMsg .KeyEnter) = switchMsg m (.KeyMsg .KeyTab) := by
        simp [switchMsg, hne]
      rw [hsw] at hs
      obtain ⟨_, _, _, _, _, _, _, _, _, htab⟩ := switchMsg_tab m h.valid
      rw [htab] at hs
      simp at hs
    · obtain ⟨input, _, _, hr'⟩ := delegate_some ed m1 _ r hd
      subst hr'; simp
  · intro msg
    obtain ⟨r, hr⟩ := htot msg
    exact ⟨r, hr, (Update_quit_iff ed m msg r hne hr).1⟩

/-- Witness for C16: the last field of the catalog, reached by twelve tabs. -/
theorem enter_never_submits_when_reachable_witness :
    ∃ m, run sampleEditor initialModel (List.replicate 12 (.KeyMsg .KeyTab)) = some m ∧
      Reachable sampleEditor m ∧ m.currentPage = 2 ∧ m.focusIndex = 4 ∧
      (m.focusIndex ≤ 4 ∧ (m.inputs.length : Int) - 1 = 12 ∧
        switchMsg m (.KeyMsg .KeyEnter) = switchMsg m (.KeyMsg .KeyTab) ∧
        (∃ r, Update sampleEditor m (.KeyMsg .KeyEnter) = some r ∧ r.cmd ≠ .Quit ∧
          r.logged = none) ∧
        ∀ msg, ∃ r, Update sampleEditor m msg = some r ∧
          (r.cmd = .Quit ↔ isCancel msg)) := by
  have h : ∃ m, run sampleEditor initialModel (List.replicate 12 (.KeyMsg .KeyTab)) = some m ∧
      m.currentPage = 2 ∧ m.focusIndex = 4 := ⟨_, rfl, by decide, by decide⟩
  obtain ⟨m, h1, h2, h3⟩ := h
  have hr := run_reachable _ _ _ _ Reachable.init h1
  exact ⟨m, h1, hr, h2, h3, enter_never_submits_when_reachable sampleEditor m hr⟩

/-- C17.  In every reachable state `0 ≤ currentPage ≤ 2` and `0 ≤ focusIndex ≤ 4`, with
13 inputs and the three page slices of the initial form.  Hence `Update` returns for
every message and `View` returns, that is, no index expression panics: the current page
slice exists and lies inside the inputs, and `inputs[focusIndex]`, `inputs[9]` and
`inputs[10]` exist, also when `focusIndex` is not an index of the current page. -/
theorem no_index_out_of_range (ed : TextInput) (fieldView : Field → String)
    (m : model) (h : Reachable ed m) :
    0 ≤ m.currentPage ∧ m.currentPage ≤ 2 ∧ 0 ≤ m.focusIndex ∧ m.focusIndex ≤ 4 ∧
    m.inputs.length = 13 ∧ m.inputsByPage = [⟨0, 3⟩, ⟨3, 5⟩, ⟨8, 5⟩] ∧
    (∀ msg, ∃ r, Update ed m msg = some r) ∧ (∃ s, View fieldView m = some s) ∧
    (∃ page a b c, idx? m.inputsByPage m.currentPage = some page ∧
      idx? m.inputs m.focusIndex = some a ∧ idx? m.inputs 9 = some b ∧
      idx? m.inputs 10 = some c ∧ page.off + page.len ≤ m.inputs.length) := by
  have hv := h.valid
  obtain ⟨hl, hp, h0, h1, h2, h3⟩ := h.inRange
  have hne : m.focusIndex ≠ (m.inputs.length : Int) - 1 := by rw [hl]; omega
  obtain ⟨page, hpg, _⟩ := idx?_some_of_lt m.inputsByPage m.currentPage hv.1 hv.2.1
  obtain ⟨a, ha, _⟩ := idx?_some_of_lt m.inputs m.focusIndex h2 (by rw [hl]; omega)
  obtain ⟨b, hb, _⟩ := idx?_some_of_lt m.inputs 9 (by omega) (by rw [hl]; omega)
  obtain ⟨c, hc, _⟩ := idx?_some_of_lt m.inputs 10 (by omega) (by rw [hl]; omega)
  exact ⟨h0, h1, h2, h3, hl, hp,
    fun msg => Update_total ed m msg hv (fun _ => Or.inl hne),
    View_total fieldView m hv (by rw [hl]; omega),
    page, a, b, c, hpg, ha, hb, hc, (hv.2.2.2.2 page (idx?_some_bounds hpg).2.2).2⟩

/-- Witness for C17: page 0 with `focusIndex = 4`, which is not an index of that page,
reached by seven tabs and a left-arrow. -/
theorem no_index_out_of_range_witness :
    ∃ m, run sampleEditor initialModel
        (List.replicate 7 (.KeyMsg .KeyTab) ++ [.KeyMsg .KeyLeft]) = some m ∧
      Reachable sampleEditor m ∧ m.currentPage = 0 ∧ m.focusIndex = 4 ∧
      (0 ≤ m.currentPage ∧ m.currentPage ≤ 2 ∧ 0 ≤ m.focusIndex ∧ m.focusIndex ≤ 4 ∧
        m.inputs.length = 13 ∧ m.inputsByPage = [⟨0, 3⟩, ⟨3, 5⟩, ⟨8, 5⟩] ∧
        (∀ msg, ∃ r, Update sampleEditor m msg = some r) ∧
        (∃ s, View sampleFieldView m = some s) ∧
        (∃ page a b c, idx? m.inputsByPage m.currentPage = some page ∧
          idx? m.inputs m.focusIndex = some a ∧ idx? m.inputs 9 = some b ∧
          idx? m.inputs 10 = some c ∧ page.off + page.len ≤ m.inputs.length)) := by
  have h : ∃ m, run sampleEditor initialModel
        (List.replicate 7 (.KeyMsg .KeyTab) ++ [.KeyMsg .KeyLeft]) = some m ∧
      m.currentPage = 0 ∧ m.focusIndex = 4 := ⟨_, rfl, by decide, by decide⟩
  obtain ⟨m, h1, h2, h3⟩ := h
  have hr := run_reachable _ _ _ _ Reachable.init h1
  exact ⟨m, h1, hr, h2, h3, no_index_out_of_range sampleEditor sampleFieldView m hr⟩

/-- C18.  For every well-formed state whose `focusIndex` is an index of the current page:
unless it is the last field of the last page, tab followed by shift-tab comes back to
the same page and focus index; unless it is the first field of the first page,
shift-tab followed by tab comes back to the same page and focus index. -/
theorem tab_shiftTab_inverse (ed : TextInput) (m : model) (page : Slice)
    (hv : m.Valid) (hp : idx? m.inputsByPage m.currentPage = some page)
    (hin : m.focusIndex < (page.len : Int)) :
    (¬ (m.currentPage = (m.inputsByPage.length : Int) - 1 ∧
        m.focusIndex = (page.len : Int) - 1) →
      ∃ r1 r2, Update ed m (.KeyMsg .KeyTab) = some r1 ∧
        Update ed r1.m (.KeyMsg .KeyShiftTab) = some r2 ∧
        r2.m.currentPage = m.currentPage ∧ r2.m.focusIndex = m.focusIndex) ∧
    (¬ (m.currentPage = 0 ∧ m.focusIndex = 0) →
      ∃ r1 r2, Update ed m (.KeyMsg .KeyShiftTab) = some r1 ∧
        Update ed r1.m (.KeyMsg .KeyTab) = some r2 ∧
        r2.m.currentPage = m.currentPage ∧ r2.m.focusIndex = m.focusIndex) := by
  have hv' := hv
  obtain ⟨h0, h1, h2, h3, h4⟩ := hv'
  constructor
  · intro hnl
    obtain ⟨r1, hr1⟩ := Update_total ed m (.KeyMsg .KeyTab) hv (fun h => by cases h)
    have hv1 := Update_valid ed m _ r1 hv hr1
    obtain ⟨r2, hr2⟩ := Update_total ed r1.m (.KeyMsg .KeyShiftTab) hv1 (fun h => by cases h)
    obtain ⟨fl1, hs1, hc1, hf1⟩ := Update_nav ed m _ r1 hr1
    obtain ⟨fl2, hs2, hc2, hf2⟩ := Update_nav ed r1.m _ r2 hr2
    obtain ⟨page', hp', ht1, ht2⟩ := switchMsg_tab_nav m fl1 hs1
    rw [hp] at hp'; cases hp'
    obtain ⟨hb1, hb2⟩ := switchMsg_shiftTab_nav r1.m fl2 hs2
    have hpg := (Update_frame ed m _ r1 hr1).1
    refine ⟨r1, r2, hr1, hr2, ?_⟩
    by_cases c1 : m.focusIndex < (page.len : Int) - 1
    · obtain ⟨e1, e2⟩ := ht1 c1
      obtain ⟨e3, e4⟩ := hb1 (by omega)
      constructor <;> omega
    · have c2 : m.currentPage < (m.inputsByPage.length : Int) - 1 := by omega
      obtain ⟨e1, e2⟩ := ht2 c1 c2
      obtain ⟨e3, prev, hprev, e4⟩ := hb2 (by omega) (by omega)
      have hcp : r1.m.currentPage - 1 = m.currentPage := by omega
      rw [hpg, hcp, hp] at hprev
      cases hprev
      constructor <;> omega
  · intro hnf
    obtain ⟨r1, hr1⟩ := Update_total ed m (.KeyMsg .KeyShiftTab) hv (fun h => by cases h)
    have hv1 := Update_valid ed m _ r1 hv hr1
    obtain ⟨r2, hr2⟩ := Update_total ed r1.m (.KeyMsg .KeyTab) hv1 (fun h => by cases h)
    obtain ⟨fl1, hs1, hc1, hf1⟩ := Update_nav ed m _ r1 hr1
    obtain ⟨fl2, hs2, hc2, hf2⟩ := Update_nav ed r1.m _ r2 hr2
    obtain ⟨hb1, hb2⟩ := switchMsg_shiftTab_nav m fl1 hs1
    obtain ⟨page1, hp1, ht1, ht2⟩ := switchMsg_tab_nav r1.m fl2 hs2
    have hpg := (Update_frame ed m _ r1 hr1).1
    refine ⟨r1, r2, hr1, hr2, ?_⟩
    by_cases c1 : m.focusIndex > 0
    · obtain ⟨e1, e2⟩ := hb1 c1
      have hcp : r1.m.currentPage = m.currentPage := by omega
      rw [hpg, hcp, hp] at hp1
      cases hp1
      obtain ⟨e3, e4⟩ := ht1 (by omega)
      constructor <;> omega
    · have c2 : m.currentPage > 0 := by
        clear hb1 hb2 ht1 ht2
        omega
      obtain ⟨e1, prev, hprev, e2⟩ := hb2 c1 c2
      have hcp : r1.m.currentPage = m.currentPage - 1 := by omega
      rw [hpg, hcp, hprev] at hp1
      cases hp1
      obtain ⟨e3, e4⟩ := ht2 (by omega) (by rw [hpg]; omega)
      constructor <;> omega

/-- Witness for C18: the first field of page 1, where both round trips cross a page
boundary or stay inside the page. -/
theorem tab_shiftTab_inverse_witness :
    firstOfPage1.Valid ∧
    idx? firstOfPage1.inputsByPage firstOfPage1.currentPage = some ⟨3, 5⟩ ∧
    firstOfPage1.focusIndex < ((⟨3, 5⟩ : Slice).len : Int) ∧
    (∃ r1 r2, Update sampleEditor firstOfPage1 (.KeyMsg .KeyTab) = some r1 ∧
      Update sampleEditor r1.m (.KeyMsg .KeyShiftTab) = some r2 ∧
      r2.m.currentPage = firstOfPage1.currentPage ∧
      r2.m.focusIndex = firstOfPage1.focusIndex) ∧
    (∃ r1 r2, Update sampleEditor firstOfPage1 (.KeyMsg .KeyShiftTab) = some r1 ∧
      Update sampleEditor r1.m (.KeyMsg .KeyTab) = some r2 ∧
      r2.m.currentPage = firstOfPage1.currentPage ∧
      r2.m.focusIndex = firstOfPage1.focusIndex) :=
  ⟨by decide, by decide, by decide,
    (tab_shiftTab_inverse sampleEditor firstOfPage1 ⟨3, 5⟩ (by decide) (by decide)
      (by decide)).1 (by decide),
    (tab_shiftTab_inverse sampleEditor firstOfPage1 ⟨3, 5⟩ (by decide) (by decide)
      (by decide)).2 (by decide)⟩

/-- C19.  From a state whose `err` is set, every message leaves `err` set, so after any
sequence of messages `err` is still set and the gas text of `View` is empty.  A failed
next-page (right-arrow before the last page while a field of the current page, that is
an input at a flat index `page.off + i` with `i < page.len`, is empty) sets `err` to the
validation error, and from then on no rendering has a gas line. -/
theorem error_once_set_stays (ed : TextInput) (m : model) (herr : m.err ≠ none) :
    (∀ msg r, Update ed m msg = some r → r.m.err ≠ none) ∧
    gasRemainingText m = some "" ∧
    (∀ msgs m', run ed m msgs = some m' → m'.err ≠ none ∧ gasRemainingText m' = some "") ∧
    (∀ (m0 : model) (page : Slice),
      m0.currentPage < (m0.inputsByPage.length : Int) - 1 →
      idx? m0.inputsByPage m0.currentPage = some page →
      (∃ i f, i < page.len ∧ m0.inputs[page.off + i]? = some f ∧ f.value = "") →
      ∃ r0, Update ed m0 (.KeyMsg .KeyRight) = some r0 ∧
        r0.m.err = some validationError ∧
        ∀ msgs m', run ed r0.m msgs = some m' →
          m'.err ≠ none ∧ gasRemainingText m' = some "") := by
  have hrun : ∀ (m1 : model), m1.err ≠ none → ∀ msgs m', run ed m1 msgs = some m' →
      m'.err ≠ none ∧ gasRemainingText m' = some "" := fun m1 h1 msgs m' hr =>
    ⟨run_err ed msgs m1 m' h1 hr, gasRemainingText_of_err m' (run_err ed msgs m1 m' h1 hr)⟩
  refine ⟨fun msg r hr => (Update_frame ed m msg r hr).2.2.1 herr,
    gasRemainingText_of_err m herr, hrun m herr, ?_⟩
  intro m0 page hlt hp hex
  exact ⟨_, keyRight_empty_field ed m0 page hlt hp hex, rfl, hrun _ (by simp)⟩

/-- Witness for C19: the initial form after a failed next-page. -/
theorem error_once_set_stays_witness :
    Update sampleEditor initialModel (.KeyMsg .KeyRight) =
      some ⟨afterFailedNextPage, .nil, none⟩ ∧
    afterFailedNextPage.err ≠ none ∧
    (∀ msg r, Update sampleEditor afterFailedNextPage msg = some r → r.m.err ≠ none) ∧
    gasRemainingText afterFailedNextPage = some "" ∧
    (∀ msgs m', run sampleEditor afterFailedNextPage msgs = some m' →
      m'.err ≠ none ∧ gasRemainingText m' = some "") ∧
    (∃ r0, Update sampleEditor initialModel (.KeyMsg .KeyRight) = some r0 ∧
      r0.m.err = some validationError ∧
      ∀ msgs m', run sampleEditor r0.m msgs = some m' →
        m'.err ≠ none ∧ gasRemainingText m' = some "") :=
  ⟨by decide, by decide,
    (error_once_set_stays sampleEditor afterFailedNextPage (by decide)).1,
    (error_once_set_stays sampleEditor afterFailedNextPage (by decide)).2.1,
    (error_once_set_stays sampleEditor afterFailedNextPage (by decide)).2.2.1,
    (error_once_set_stays sampleEditor afterFailedNextPage (by decide)).2.2.2 initialModel
      ⟨0, 3⟩ (by decide) (by decide) ⟨0, _, by decide, rfl, by decide⟩⟩

/-- C20.  After tab, shift-tab or enter outside the submission branch, from a well-formed
state and with a text input that keeps the focus flag on that key: field `i` of the
resulting page is focused exactly when `i` is the resulting `focusIndex`, so exactly one
field of that page is focused when `focusIndex` is an index of the page, and none
otherwise; every input outside the index range of the resulting page, in particular
every field of a page disjoint from it, has the focus flag it had before. -/
theorem focus_reapplied_on_resulting_page_only (ed : TextInput) (m : model)
    (key : KeyType) (hv : m.Valid)
    (hkey : key = .KeyTab ∨ key = .KeyShiftTab ∨ key = .KeyEnter)
    (hnt : key = .KeyEnter → m.focusIndex ≠ (m.inputs.length : Int) - 1)
    (hed : ∀ f, (ed (.KeyMsg key) f).focus = f.focus) :
    ∃ r page1, Update ed m (.KeyMsg key) = some r ∧
      idx? r.m.inputsByPage r.m.currentPage = some page1 ∧
      (∀ i, i < page1.len →
        (r.m.inputs[page1.off + i]?).map (fun f => f.focus) =
          some (decide ((i : Int) = r.m.focusIndex))) ∧
      (¬ (0 ≤ r.m.focusIndex ∧ r.m.focusIndex < (page1.len : Int)) →
        ∀ i, i < page1.len →
          (r.m.inputs[page1.off + i]?).map (fun f => f.focus) = some false) ∧
      (∀ j, ¬ (page1.off ≤ j ∧ j < page1.off + page1.len) →
        (r.m.inputs[j]?).map (fun f => f.focus) = (m.inputs[j]?).map (fun f => f.focus)) ∧
      (∀ q ∈ m.inputsByPage,
        q.off + q.len ≤ page1.off ∨ page1.off + page1.len ≤ q.off →
        ∀ i, i < q.len →
          (r.m.inputs[q.off + i]?).map (fun f => f.focus) =
            (m.inputs[q.off + i]?).map (fun f => f.focus)) := by
  obtain ⟨r, hr⟩ := Update_total ed m (.KeyMsg key) hv
    (fun h => Or.inl (hnt (by cases h; rfl)))
  rcases Update_cases ed m _ r hr with hs | ⟨m1, hs, hd⟩
  · obtain ⟨m1, _, hfl, _⟩ := switchMsg_focus_applied m key _ hkey hnt hs
    cases hfl
  · obtain ⟨m1', page1, hfl, hp1, hpg, hin⟩ := switchMsg_focus_applied m key _ hkey hnt hs
    cases hfl
    obtain ⟨input, hi, _, hr'⟩ := delegate_some ed m1 _ r hd
    subst hr'
    have hpb := hv.2.2.2.2 page1 (idx?_some_bounds hp1).2.2
    have hmap : ∀ j : Nat, ((m1.inputs.set m1.focusIndex.toNat (ed (.KeyMsg key) input))[j]?).map
        (fun f : Field => f.focus) =
        ((focusLoop page1 m1.focusIndex m.inputs)[j]?).map (fun f : Field => f.focus) := by
      intro j
      rw [← List.getElem?_map, ← List.getElem?_map,
        map_set_same (fun f : Field => f.focus) _ _ input _ hi (hed input), hin]
    have hpt : ∀ i : Nat, i < page1.len →
        ((m1.inputs.set m1.focusIndex.toNat (ed (.KeyMsg key) input))[page1.off + i]?).map
          (fun f : Field => f.focus) = some (decide ((i : Int) = m1.focusIndex)) := by
      intro i hi'
      rw [hmap, focusLoop_getElem?]
      have hr : page1.off ≤ page1.off + i ∧ page1.off + i < page1.off + page1.len := by omega
      have hlt : page1.off + i < m.inputs.length := by omega
      rw [if_pos hr, List.getElem?_eq_getElem hlt]
      simp only [Option.map_some', Nat.add_sub_cancel_left]
      split <;> simp_all [Field.Focus, Field.Blur]
    have hout : ∀ j : Nat, ¬ (page1.off ≤ j ∧ j < page1.off + page1.len) →
        ((m1.inputs.set m1.focusIndex.toNat (ed (.KeyMsg key) input))[j]?).map
          (fun f : Field => f.focus) = (m.inputs[j]?).map (fun f : Field => f.focus) := by
      intro j hj
      rw [hmap, focusLoop_getElem?, if_neg hj]
    refine ⟨_, page1, hr, by simpa [hpg] using hp1, hpt, ?_, hout, ?_⟩
    · intro hnv i hi'
      rw [hpt i hi']
      simp only [Option.some.injEq, decide_eq_false_iff_not]
      intro he
      apply hnv
      simp only
      omega
    · intro q _ hdis i hi'
      exact hout _ (by omega)

/-- Witness for C20: tab on the last field of page 0, which moves to page 1. -/
theorem focus_reapplied_on_resulting_page_only_witness :
    lastOfPage0.Valid ∧
    (∀ f, (sampleEditor (.KeyMsg .KeyTab) f).focus = f.focus) ∧
    ∃ r page1, Update sampleEditor lastOfPage0 (.KeyMsg .KeyTab) = some r ∧
      idx? r.m.inputsByPage r.m.currentPage = some page1 ∧
      (∀ i, i < page1.len →
        (r.m.inputs[page1.off + i]?).map (fun f => f.focus) =
          some (decide ((i : Int) = r.m.focusIndex))) ∧
      (¬ (0 ≤ r.m.focusIndex ∧ r.m.focusIndex < (page1.len : Int)) →
        ∀ i, i < page1.len →
          (r.m.inputs[page1.off + i]?).map (fun f => f.focus) = some false) ∧
      (∀ j, ¬ (page1.off ≤ j ∧ j < page1.off + page1.len) →
        (r.m.inputs[j]?).map (fun f => f.focus) =
          (lastOfPage0.inputs[j]?).map (fun f => f.focus)) ∧
      (∀ q ∈ lastOfPage0.inputsByPage,
        q.off + q.len ≤ page1.off ∨ page1.off + page1.len ≤ q.off →
        ∀ i, i < q.len →
          (r.m.inputs[q.off + i]?).map (fun f => f.focus) =
            (lastOfPage0.inputs[q.off + i]?).map (fun f => f.focus)) :=
  ⟨by decide, sampleEditor_focus (.KeyMsg .KeyTab),
    focus_reapplied_on_resulting_page_only sampleEditor lastOfPage0 .KeyTab (by decide)
      (by decide) (fun h => by cases h) (sampleEditor_focus (.KeyMsg .KeyTab))⟩

end DiveTerminal
